import Mathlib

/-!
Verification of the crumb prompt-capture tool.

Shallow embedding conventions:
* a Go string is modelled as a `List Nat` of its UTF-8 BYTES, because the
  source manipulates strings byte-wise: `len(s)` counts bytes and `s[:50]`
  slices bytes (possibly splitting a multi-byte character), while
  rune-ranging constructs (`for range`, `strings.Map`, the `unicode`
  predicates) decode UTF-8 with Go's semantics (an invalid byte decodes to
  U+FFFD and consumes one byte).  `utf8Encode`/`utf8Decode` below model
  Go's `unicode/utf8` encoding and decoding; `str` converts an ASCII Lean
  string literal into this byte representation.
* the `unicode` character tables used by the source (`IsLetter`, `IsDigit`,
  `IsSpace`, `ToLower`) are modelled on a documented fragment: ASCII plus,
  for `IsLetter`, the CJK Unified Ideographs block (where `ToLower` is the
  identity, as in Go) and, for `IsDigit`, the Devanagari digits.  The
  fragment contains multi-byte letters, so the byte-level truncation
  behaviour of the source is fully exercised.
* Go's `int` is modelled as `Int`; Go's `%` on the non-negative operands
  that occur here agrees with `Int.tmod`.
* fallible operations return `Option`/`Except`; filesystem and clock
  effects are passed in explicitly (`Env`) and returned explicitly (`Cmd`,
  the optional written file).
-/

set_option maxHeartbeats 1600000
set_option maxRecDepth 16000

/-! ### UTF-8 model -/

/-- Model of Go `utf8.AppendRune`: the UTF-8 bytes of a rune; a surrogate
or out-of-range value encodes as U+FFFD, as in Go. -/
def utf8EncodeChar (r : Nat) : List Nat :=
  if r < 0x80 then [r]
  else if r < 0x800 then [0xC0 + r / 64, 0x80 + r % 64]
  else if 0xD800 ≤ r ∧ r < 0xE000 then [0xEF, 0xBF, 0xBD]
  else if r < 0x10000 then [0xE0 + r / 4096, 0x80 + (r / 64) % 64, 0x80 + r % 64]
  else if r ≤ 0x10FFFF then
    [0xF0 + r / 0x40000, 0x80 + (r / 4096) % 64, 0x80 + (r / 64) % 64, 0x80 + r % 64]
  else [0xEF, 0xBF, 0xBD]

/-- UTF-8 encoding of a rune sequence. -/
def utf8Encode : List Nat → List Nat
  | [] => []
  | r :: rs => utf8EncodeChar r ++ utf8Encode rs

/-- Convert an ASCII Lean string literal to the byte model of a Go string. -/
def str (s : String) : List Nat :=
  utf8Encode (s.data.map Char.toNat)

/-- Acceptance test for a 3-byte UTF-8 sequence, following Go's
`acceptRanges` table (so overlong encodings and surrogates are rejected). -/
abbrev utf8Accept3 (b0 b1 b2 : Nat) : Prop :=
  ((b0 = 0xE0 ∧ 0xA0 ≤ b1 ∧ b1 ≤ 0xBF) ∨
   (b0 = 0xED ∧ 0x80 ≤ b1 ∧ b1 ≤ 0x9F) ∨
   (b0 ≠ 0xE0 ∧ b0 ≠ 0xED ∧ 0x80 ≤ b1 ∧ b1 ≤ 0xBF)) ∧
  0x80 ≤ b2 ∧ b2 ≤ 0xBF

/-- Acceptance test for a 4-byte UTF-8 sequence, following Go's
`acceptRanges` table. -/
abbrev utf8Accept4 (b0 b1 b2 b3 : Nat) : Prop :=
  ((b0 = 0xF0 ∧ 0x90 ≤ b1 ∧ b1 ≤ 0xBF) ∨
   (b0 = 0xF4 ∧ 0x80 ≤ b1 ∧ b1 ≤ 0x8F) ∨
   (b0 ≠ 0xF0 ∧ b0 ≠ 0xF4 ∧ 0x80 ≤ b1 ∧ b1 ≤ 0xBF)) ∧
  (0x80 ≤ b2 ∧ b2 ≤ 0xBF) ∧ (0x80 ≤ b3 ∧ b3 ≤ 0xBF)

/-- Model of Go's UTF-8 decoding loop (`for range`, `strings.Map`): decode
each rune; an invalid sequence yields U+FFFD and consumes exactly one byte,
exactly as `utf8.DecodeRuneInString` does.  The list patterns enumerate how
many bytes remain so that the recursion is structural. -/
def utf8Decode : List Nat → List Nat
  | [] => []
  | [b0] =>
    if b0 < 0x80 then [b0] else [0xFFFD]
  | [b0, b1] =>
    if b0 < 0x80 then b0 :: utf8Decode [b1]
    else if 0xC2 ≤ b0 ∧ b0 ≤ 0xDF then
      if 0x80 ≤ b1 ∧ b1 ≤ 0xBF then [(b0 - 0xC0) * 64 + (b1 - 0x80)]
      else 0xFFFD :: utf8Decode [b1]
    else 0xFFFD :: utf8Decode [b1]
  | [b0, b1, b2] =>
    if b0 < 0x80 then b0 :: utf8Decode [b1, b2]
    else if 0xC2 ≤ b0 ∧ b0 ≤ 0xDF then
      if 0x80 ≤ b1 ∧ b1 ≤ 0xBF then ((b0 - 0xC0) * 64 + (b1 - 0x80)) :: utf8Decode [b2]
      else 0xFFFD :: utf8Decode [b1, b2]
    else if 0xE0 ≤ b0 ∧ b0 ≤ 0xEF then
      if utf8Accept3 b0 b1 b2 then [(b0 - 0xE0) * 4096 + (b1 - 0x80) * 64 + (b2 - 0x80)]
      else 0xFFFD :: utf8Decode [b1, b2]
    else 0xFFFD :: utf8Decode [b1, b2]
  | b0 :: b1 :: b2 :: b3 :: rest =>
    if b0 < 0x80 then b0 :: utf8Decode (b1 :: b2 :: b3 :: rest)
    else if 0xC2 ≤ b0 ∧ b0 ≤ 0xDF then
      if 0x80 ≤ b1 ∧ b1 ≤ 0xBF then
        ((b0 - 0xC0) * 64 + (b1 - 0x80)) :: utf8Decode (b2 :: b3 :: rest)
      else 0xFFFD :: utf8Decode (b1 :: b2 :: b3 :: rest)
    else if 0xE0 ≤ b0 ∧ b0 ≤ 0xEF then
      if utf8Accept3 b0 b1 b2 then
        ((b0 - 0xE0) * 4096 + (b1 - 0x80) * 64 + (b2 - 0x80)) :: utf8Decode (b3 :: rest)
      else 0xFFFD :: utf8Decode (b1 :: b2 :: b3 :: rest)
    else if 0xF0 ≤ b0 ∧ b0 ≤ 0xF4 then
      if utf8Accept4 b0 b1 b2 b3 then
        ((b0 - 0xF0) * 0x40000 + (b1 - 0x80) * 4096 + (b2 - 0x80) * 64 + (b3 - 0x80)) ::
          utf8Decode rest
      else 0xFFFD :: utf8Decode (b1 :: b2 :: b3 :: rest)
    else 0xFFFD :: utf8Decode (b1 :: b2 :: b3 :: rest)

/-- A valid Unicode scalar value (encodable and decodable losslessly). -/
def validScalar (r : Nat) : Prop :=
  r < 0xD800 ∨ (0xE000 ≤ r ∧ r ≤ 0x10FFFF)

/-! ### Unicode character classes (documented fragment) -/

/-- Model of Go `unicode.ToLower` on the modelled fragment: maps the ASCII
letters `'A'..'Z'` (65..90) down by 32; the identity elsewhere — in
particular on the CJK Unified Ideographs, which are caseless in Go too. -/
def go_toLower (r : Nat) : Nat :=
  if 65 ≤ r ∧ r ≤ 90 then r + 32 else r

/-- Model of Go `unicode.IsLetter` on the modelled fragment: the ASCII
letters plus the CJK Unified Ideographs block U+4E00..U+9FFF (all letters
in Go's tables). -/
def go_isLetter (r : Nat) : Bool :=
  (97 ≤ r && r ≤ 122) || (65 ≤ r && r ≤ 90) || (0x4E00 ≤ r && r ≤ 0x9FFF)

/-- Model of Go `unicode.IsDigit` on the modelled fragment: the ASCII
digits plus the Devanagari digits U+0966..U+096F. -/
def go_isDigit (r : Nat) : Bool :=
  (48 ≤ r && r ≤ 57) || (0x966 ≤ r && r ≤ 0x96F)

/-- The rune filter used by `Slugify`: keep letters, digits and hyphens
(`unicode.IsLetter(r) || unicode.IsDigit(r) || r == '-'`). -/
def isSlugKeep (r : Nat) : Bool :=
  go_isLetter r || go_isDigit r || r == 45

/-- Model of Go `unicode.IsSpace` on the modelled (ASCII) fragment, as
trimmed by `strings.TrimSpace`: tab, LF, VT, FF, CR and space — all
single-byte, so the trim acts byte-wise. -/
def go_isSpace (b : Nat) : Bool :=
  b == 9 || b == 10 || b == 11 || b == 12 || b == 13 || b == 32

/-- The character class of the regular expression `\s` in Go's `regexp`
package: `[\t\n\f\r ]` (note: no vertical tab); all ASCII, so the
replacement acts byte-wise on any input. -/
def re_isSpace (b : Nat) : Bool :=
  b == 9 || b == 10 || b == 12 || b == 13 || b == 32

/-! ### Byte-string combinators -/

/-- Model of `strings.ReplaceAll(s, a, b)` for single ASCII bytes `a`, `b`:
a byte substitution (no multi-byte UTF-8 unit contains an ASCII byte). -/
def replaceChar (a b : Nat) (s : List Nat) : List Nat :=
  s.map (fun c => if c = a then b else c)

/-- Model of replacing every maximal run of bytes satisfying `p` by the
single byte `rep`: the effect of `regexp.MustCompile("X+").ReplaceAllString(s, rep)`
for an ASCII character class `X`.  Used with `p := (· == 45)`, `rep := 45`
for the hyphen collapsing in `Slugify` and with `p := re_isSpace`,
`rep := 32` for the whitespace collapsing in `GenerateTitle`. -/
def collapseRunsBy (p : Nat → Bool) (rep : Nat) : List Nat → List Nat
  | [] => []
  | [c] => if p c then [rep] else [c]
  | a :: b :: rest =>
    if p a && p b then collapseRunsBy p rep (b :: rest)
    else (if p a then rep else a) :: collapseRunsBy p rep (b :: rest)

/-- Model of `strings.Trim`/`strings.TrimSpace` for an ASCII cut class:
drop bytes satisfying `p` from both ends. -/
def goTrimBy (p : Nat → Bool) (s : List Nat) : List Nat :=
  ((s.dropWhile p).reverse.dropWhile p).reverse

/-- Model of `strings.TrimSpace` (ASCII fragment of the space class). -/
def goTrimSpace (s : List Nat) : List Nat := goTrimBy go_isSpace s

/-- Index of the last occurrence of byte `c`, if any (helper for
`goLastIndexChar`). -/
def lastIdx? (c : Nat) : List Nat → Option Nat
  | [] => none
  | x :: xs =>
    match lastIdx? c xs with
    | some i => some (i + 1)
    | none => if x = c then some 0 else none

/-- Model of Go `strings.LastIndex(s, string(c))` for an ASCII byte `c`:
the byte index of the last occurrence, or `-1` when `c` does not occur. -/
def goLastIndexChar (s : List Nat) (c : Nat) : Int :=
  match lastIdx? c s with
  | some i => (i : Int)
  | none => -1

/-- The truncation pattern shared by `Slugify` (`len(s) > 50`, `s[:50]`,
cut `'-'`) and `GenerateTitle` (`len(prompt) <= 60`, `prompt[:60]`, cut
`' '`): all BYTE counts and BYTE slices, exactly as in the source — the
slice may split a multi-byte character.  When the last occurrence of `cut`
in the window is at a positive index, back up to it. -/
def goCapAt (limit : Nat) (cut : Nat) (s : List Nat) : List Nat :=
  if limit < s.length then
    let truncated := s.take limit
    let lastCut := goLastIndexChar truncated cut
    if 0 < lastCut then truncated.take lastCut.toNat else truncated
  else s

/-! ### Slug/filename/title deriver (the storage package) -/

/-- Model of `storage.Slugify`, stage by stage at byte level:
`strings.ToLower` (decode, lowercase each rune, re-encode — Go's
`strings.Map`); `ReplaceAll` of space and underscore by hyphen (ASCII byte
substitutions); the keep-letters/digits/hyphens loop (`for range` decodes
runes — an invalid byte becomes U+FFFD and is dropped — and the builder
re-encodes the kept runes); collapse hyphen-byte runs; trim hyphen bytes;
cap at 50 BYTES backing up to the last hyphen byte when its index is
positive. -/
def Slugify (s : List Nat) : List Nat :=
  let lowered := utf8Encode ((utf8Decode s).map go_toLower)
  let noSpaces := replaceChar 32 45 lowered
  let noUnderscores := replaceChar 95 45 noSpaces
  let filtered := utf8Encode ((utf8Decode noUnderscores).filter isSlugKeep)
  let collapsed := collapseRunsBy (fun b => b == 45) 45 filtered
  let trimmed := goTrimBy (fun b => b == 45) collapsed
  goCapAt 50 45 trimmed

/-- Transcription of the specification's description of `Slugify`, with the
cap read at BYTE granularity (the amendment forced by the source): the
character-level pipeline "lowercase; map spaces and underscores to hyphens;
drop every character that is not a letter, digit, or hyphen", then collapse
consecutive hyphens, trim leading/trailing hyphens, and cap at 50 bytes,
backing up to the last hyphen boundary in the 50-byte window when one
exists (else hard-truncate). -/
def SlugifySpec (s : List Nat) : List Nat :=
  let runes := ((utf8Decode s).map go_toLower).map (fun r => if r = 32 ∨ r = 95 then 45 else r)
  let kept := utf8Encode (runes.filter isSlugKeep)
  let collapsed := collapseRunsBy (fun b => b == 45) 45 kept
  let trimmed := goTrimBy (fun b => b == 45) collapsed
  if trimmed.length ≤ 50 then trimmed
  else
    match lastIdx? 45 (trimmed.take 50) with
    | some i => (trimmed.take 50).take i
    | none => trimmed.take 50

/-- The claim's description of `Slugify` taken at CHARACTER granularity
("capped at 50 characters"): the same pipeline on decoded runes, with the
cap counting characters; used to refute the claim as stated. -/
def SlugifySpecChars (s : List Nat) : List Nat :=
  let runes := ((utf8Decode s).map go_toLower).map (fun r => if r = 32 ∨ r = 95 then 45 else r)
  let kept := runes.filter isSlugKeep
  let collapsed := collapseRunsBy (fun r => r == 45) 45 kept
  let trimmed := goTrimBy (fun r => r == 45) collapsed
  let capped :=
    if trimmed.length ≤ 50 then trimmed
    else
      match lastIdx? 45 (trimmed.take 50) with
      | some i => (trimmed.take 50).take i
      | none => trimmed.take 50
  utf8Encode capped

/-- Model of `storage.GenerateTitle` at byte level: `strings.TrimSpace`,
collapse of `\s+` runs to single spaces (both act byte-wise, the classes
being ASCII); return as-is when `len(prompt) <= 60` BYTES, else slice
`prompt[:60]` backing up to the last space byte when its index is
positive. -/
def GenerateTitle (prompt : List Nat) : List Nat :=
  let trimmed := goTrimSpace prompt
  let normalized := collapseRunsBy re_isSpace 32 trimmed
  goCapAt 60 32 normalized

/-- Transcription of the specification's description of `GenerateTitle`
with the cap read at BYTE granularity (the amendment forced by the
source): collapse whitespace runs to single spaces, trim ends; if at most
60 bytes return as-is; otherwise truncate to the first 60 bytes and back
up to the last space boundary if one exists within that window. -/
def GenerateTitleSpec (prompt : List Nat) : List Nat :=
  let normalized := collapseRunsBy re_isSpace 32 (goTrimSpace prompt)
  if normalized.length ≤ 60 then normalized
  else
    match lastIdx? 32 (normalized.take 60) with
    | some i => (normalized.take 60).take i
    | none => normalized.take 60

/-- The claim's description of `GenerateTitle` taken at CHARACTER
granularity ("if the result is at most 60 characters it is returned
as-is…"): the cap counts and slices decoded characters; used to refute the
claim as stated. -/
def GenerateTitleSpecChars (prompt : List Nat) : List Nat :=
  let runes := utf8Decode (collapseRunsBy re_isSpace 32 (goTrimSpace prompt))
  utf8Encode (
    if runes.length ≤ 60 then runes
    else
      match lastIdx? 32 (runes.take 60) with
      | some i => (runes.take 60).take i
      | none => runes.take 60)

/-- Calendar date of a timestamp, as used by `GenerateFilename`
(`timestamp.Format("2006-01-02")` reads only the date). -/
structure GoTime where
  year : Nat
  month : Nat
  day : Nat
  deriving DecidableEq

/-- Decimal digit bytes of `n`, left-padded with `'0'` to width `w`; models
the zero-padded fields of Go's reference-layout time formatting. -/
def padNat (w n : Nat) : List Nat :=
  let d := (Nat.toDigits 10 n).map Char.toNat
  List.replicate (w - d.length) 48 ++ d

/-- Model of `timestamp.Format("2006-01-02")`. -/
def formatDate (t : GoTime) : List Nat :=
  padNat 4 t.year ++ str "-" ++ padNat 2 t.month ++ str "-" ++ padNat 2 t.day

/-- Model of `storage.GenerateFilename`: `"<YYYY-MM-DD>" + "-" + Slugify(title) + ".md"`. -/
def GenerateFilename (title : List Nat) (timestamp : GoTime) : List Nat :=
  let datePrefix := formatDate timestamp
  let slug := Slugify title
  datePrefix ++ str "-" ++ slug ++ str ".md"

/-! ### Capture form (internal/tui/app.go) -/

/-- Messages consumed by `Model.Update`.  `key s` models a `tea.KeyMsg`
whose `String()` is `s`; the other constructors model the message types
declared in app.go (`saveSuccessMsg`, `saveErrorMsg`, `quitAfterDelayMsg`,
`ToastHideMsg`, `tea.WindowSizeMsg`). -/
inductive Msg where
  | key (s : List Nat)
  | saveSuccess (filename : List Nat)
  | saveError (err : List Nat)
  | quitAfterDelay
  | toastHide
  | windowSize (w h : Int)
  deriving DecidableEq

/-- Commands scheduled by the update function.  `hideToastAfter n` models
`HideToastAfter(n * time.Second)`, `tick ms msg` models `tea.Tick` delivering
`msg`, `emit msg` models a command function returning `msg`, `quit` models
`tea.Quit`. -/
inductive Cmd where
  | none
  | quit
  | hideToastAfter (seconds : Nat)
  | tick (ms : Nat) (m : Msg)
  | emit (m : Msg)
  deriving DecidableEq

/-- Observable state of a `textarea.Model` (vendor component): its text
content, focus flag and layout size. -/
structure Textarea where
  value : List Nat
  focused : Bool
  height : Int
  width : Int
  deriving DecidableEq

/-- Observable state of the `components.TagInput` component (its source is
not part of this repository). -/
structure TagInput where
  suggestions : List (List Nat)
  tags : List (List Nat)
  input : List Nat
  focused : Bool
  deriving DecidableEq

/-- Modelled from the spec: `components.NewTagInput` (component source not in
this repository) builds a tag input in its initial empty state carrying the
given suggestions — "reset all fields to initial empty state (including
recomputing tag suggestions …)". -/
def NewTagInput (suggestions : List (List Nat)) : TagInput :=
  { suggestions := suggestions, tags := [], input := [], focused := false }

/-- Observable state of the `components.Dropdown` tool selector (its source
is not part of this repository): option list, current selection, focus. -/
structure Dropdown where
  options : List (List Nat)
  selectedIdx : Nat
  selected : List Nat
  focused : Bool
  deriving DecidableEq

/-- The TUI `Model` of app.go.  The `config` pointer is represented by the
only config field read on the modelled paths (`FavoriteTags`); the storage
handle is represented by the explicit `Env` below. -/
structure Model where
  prompt : Textarea
  tags : TagInput
  output : Textarea
  toolSelect : Dropdown
  focusIndex : Int
  showHelp : Bool
  showToast : Bool
  toastMsg : List Nat
  isError : Bool
  favoriteTags : List (List Nat)
  stayOpen : Bool
  width : Int
  height : Int
  deriving DecidableEq

instance {ε α : Type} [DecidableEq ε] [DecidableEq α] : DecidableEq (Except ε α) := fun a b =>
  match a, b with
  | Except.ok x, Except.ok y =>
    if h : x = y then isTrue (by rw [h]) else isFalse (fun hc => h (Except.ok.inj hc))
  | Except.error x, Except.error y =>
    if h : x = y then isTrue (by rw [h]) else isFalse (fun hc => h (Except.error.inj hc))
  | Except.ok _, Except.error _ => isFalse (fun hc => Except.noConfusion hc)
  | Except.error _, Except.ok _ => isFalse (fun hc => Except.noConfusion hc)

/-- Ambient effects read during a save: the git author, the clock (calendar
date for the filename plus its RFC3339 rendering for the front matter), the
frequent tags that `storage.GetFrequentTags(10)` would return after the
save, and the result of `storage.Save` (absolute path or error message). -/
structure Env where
  gitAuthor : List Nat
  now : GoTime
  nowRFC3339 : List Nat
  freshFrequent : List (List Nat)
  saveResult : Except (List Nat) (List Nat)
  deriving DecidableEq

/-- Modelled from the spec: the bubbles textarea's own editing behaviour
(vendor component, not in this repository) — "text insertion/deletion for
text fields"; a routed key inserts its text when the field is focused. -/
def Textarea.update (ta : Textarea) (msg : Msg) : Textarea :=
  match msg with
  | Msg.key s => if ta.focused then { ta with value := ta.value ++ s } else ta
  | _ => ta

/-- Modelled from the spec: the tool dropdown's editing behaviour (component
source not in this repository) — "selection movement for the tool dropdown". -/
def Dropdown.update (d : Dropdown) (msg : Msg) : Dropdown :=
  match msg with
  | Msg.key s =>
    if d.focused then
      if s = str "down" then
        let idx := (d.selectedIdx + 1) % d.options.length
        { d with selectedIdx := idx, selected := d.options.getD idx d.selected }
      else if s = str "up" then
        let idx := (d.selectedIdx + d.options.length - 1) % d.options.length
        { d with selectedIdx := idx, selected := d.options.getD idx d.selected }
      else d
    else d
  | _ => d

/-- Modelled from the spec: the tag input's editing behaviour (component
source not in this repository) — "token add/remove for the tag input"
("enter to add, backspace to remove"); other keys extend the pending token. -/
def TagInput.update (ti : TagInput) (msg : Msg) : TagInput :=
  match msg with
  | Msg.key s =>
    if ti.focused then
      if s = str "enter" then
        if ti.input = [] then ti else { ti with tags := ti.tags ++ [ti.input], input := [] }
      else if s = str "backspace" then
        if ti.input = [] then { ti with tags := ti.tags.dropLast }
        else { ti with input := ti.input.dropLast }
      else { ti with input := ti.input ++ s }
    else ti
  | _ => ti

/-- The component dispatch at the end of `Model.Update`: the message is
routed to the component selected by `focusIndex`. -/
def routeToFocused (m : Model) (msg : Msg) : Model :=
  if m.focusIndex = 0 then { m with prompt := m.prompt.update msg }
  else if m.focusIndex = 1 then { m with output := m.output.update msg }
  else if m.focusIndex = 2 then { m with toolSelect := m.toolSelect.update msg }
  else if m.focusIndex = 3 then { m with tags := m.tags.update msg }
  else m

/-- The blur half of `Model.setFocus`: blur the component selected by the
current `focusIndex`. -/
def blurCurrent (m : Model) : Model :=
  if m.focusIndex = 0 then { m with prompt := { m.prompt with focused := false } }
  else if m.focusIndex = 1 then { m with output := { m.output with focused := false } }
  else if m.focusIndex = 2 then { m with toolSelect := { m.toolSelect with focused := false } }
  else if m.focusIndex = 3 then { m with tags := { m.tags with focused := false } }
  else m

/-- The focus half of `Model.setFocus`: focus the component selected by the
(new) `focusIndex`. -/
def focusCurrent (m : Model) : Model :=
  if m.focusIndex = 0 then { m with prompt := { m.prompt with focused := true } }
  else if m.focusIndex = 1 then { m with output := { m.output with focused := true } }
  else if m.focusIndex = 2 then { m with toolSelect := { m.toolSelect with focused := true } }
  else if m.focusIndex = 3 then { m with tags := { m.tags with focused := true } }
  else m

/-- Model of `Model.setFocus`: blur the old field, set `focusIndex`, focus
the new field. -/
def setFocus (m : Model) (index : Int) : Model :=
  focusCurrent { blurCurrent m with focusIndex := index }

/-- Model of `Model.focusNext`: `setFocus((focusIndex + 1) % 4)` with Go's
truncating `%`. -/
def focusNext (m : Model) : Model :=
  setFocus m ((m.focusIndex + 1).tmod 4)

/-- Model of `Model.focusPrev`: `setFocus((focusIndex - 1 + 4) % 4)`. -/
def focusPrev (m : Model) : Model :=
  setFocus m ((m.focusIndex - 1 + 4).tmod 4)

/-- Model of `Model.updateTextareaSizes`. -/
def updateTextareaSizes (m : Model) : Model :=
  let fixedHeight : Int := 26
  let availableHeight := m.height - fixedHeight
  let availableHeight := if availableHeight < 10 then 10 else availableHeight
  let promptHeight := availableHeight * 60 / 100
  let outputHeight := availableHeight - promptHeight
  let promptHeight := if promptHeight < 4 then 4 else promptHeight
  let outputHeight := if outputHeight < 3 then 3 else outputHeight
  { m with
    prompt := { m.prompt with height := promptHeight, width := m.width - 8 },
    output := { m.output with height := outputHeight, width := m.width - 8 } }

/-- Model of `mergeTagSuggestions`'s loop body: walk the list keeping a
`seen` set (the Go `map[string]bool`) in lockstep with the `result` slice. -/
def mergeAdd (seen result : List (List Nat)) : List (List Nat) → List (List Nat) × List (List Nat)
  | [] => (seen, result)
  | tag :: rest =>
    if tag ∈ seen then mergeAdd seen result rest
    else mergeAdd (tag :: seen) (result ++ [tag]) rest

/-- Model of `mergeTagSuggestions`: favorites first (higher priority), then
frequent tags not already present, skipping duplicates. -/
def mergeTagSuggestions (favorites frequent : List (List Nat)) : List (List Nat) :=
  let p := mergeAdd [] [] favorites
  (mergeAdd p.1 p.2 frequent).2

/-- The markdown content assembled by `saveAndExit`: front-matter block, then
the prompt section, then the output section when the output is non-blank. -/
def buildContent (title dateStr author tool : List Nat) (tags : List (List Nat))
    (promptVal outputVal : List Nat) : List Nat :=
  str "---\n" ++
  str "title: " ++ title ++ str "\n" ++
  str "date: " ++ dateStr ++ str "\n" ++
  str "author: " ++ author ++ str "\n" ++
  str "tool: " ++ tool ++ str "\n" ++
  (if 0 < tags.length then
    tags.foldl (fun acc tag => acc ++ str "  - " ++ tag ++ str "\n") (str "tags:\n")
  else []) ++
  str "---\n\n" ++
  str "## Prompt\n\n" ++ promptVal ++ str "\n\n" ++
  (if goTrimSpace outputVal = [] then [] else str "## Output\n\n" ++ outputVal ++ str "\n")

/-- Model of `Model.clearFields`: reset the prompt, rebuild the tag input
with freshly merged suggestions, reset the output, return focus to field 0. -/
def clearFields (env : Env) (m : Model) : Model :=
  let m1 := { m with prompt := { m.prompt with value := [] } }
  let tagSuggestions := mergeTagSuggestions m.favoriteTags env.freshFrequent
  let m2 := { m1 with tags := NewTagInput tagSuggestions }
  let m3 := { m2 with output := { m2.output with value := [] } }
  setFocus m3 0

/-- Model of `Model.saveAndExit`.  Returns the updated model, the scheduled
command, and the file written by a successful `storage.Save` (name and
content), `none` when nothing was persisted. -/
def saveAndExit (env : Env) (m : Model) : Model × Cmd × Option (List Nat × List Nat) :=
  if goTrimSpace m.prompt.value = [] then
    ({ m with showToast := true, isError := true, toastMsg := str "Prompt is required" },
      Cmd.hideToastAfter 2, none)
  else
    let title := GenerateTitle m.prompt.value
    let filename := GenerateFilename title env.now
    let author := if env.gitAuthor = [] then str "Unknown" else env.gitAuthor
    let content := buildContent title env.nowRFC3339 author m.toolSelect.selected m.tags.tags
        m.prompt.value m.output.value
    match env.saveResult with
    | Except.error e =>
      ({ m with showToast := true, isError := true, toastMsg := str "Error: " ++ e },
        Cmd.hideToastAfter 3, none)
    | Except.ok path =>
      if m.stayOpen then
        (clearFields env { m with
            showToast := true
            isError := false
            toastMsg := str "Saved: " ++ path },
          Cmd.hideToastAfter 2, some (filename, content))
      else
        (m, Cmd.emit (Msg.saveSuccess path), some (filename, content))

/-- Model of `Model.Update`.  Returns the new model, the scheduled command
and the successfully written file, if any. -/
def Update (env : Env) (m : Model) (msg : Msg) : Model × Cmd × Option (List Nat × List Nat) :=
  match msg with
  | Msg.saveSuccess _ =>
    let m1 := { m with showToast := true, isError := false, toastMsg := str "Saved!" }
    if m1.stayOpen then (clearFields env m1, Cmd.hideToastAfter 2, none)
    else (m1, Cmd.tick 500 Msg.quitAfterDelay, none)
  | Msg.saveError e =>
    ({ m with showToast := true, isError := true, toastMsg := str "Error: " ++ e },
      Cmd.hideToastAfter 3, none)
  | Msg.quitAfterDelay => (m, Cmd.quit, none)
  | Msg.toastHide => ({ m with showToast := false }, Cmd.none, none)
  | Msg.windowSize w h =>
    (updateTextareaSizes { m with width := w, height := h }, Cmd.none, none)
  | Msg.key s =>
    if m.showHelp then
      ({ m with showHelp := false }, Cmd.none, none)
    else if s = str "ctrl+c" ∨ s = str "ctrl+d" then (m, Cmd.quit, none)
    else if s = str "esc" then (m, Cmd.quit, none)
    else if s = str "?" then ({ m with showHelp := true }, Cmd.none, none)
    else if s = str "ctrl+s" then saveAndExit env m
    else if s = str "/" ∨ s = str "ctrl+t" then (setFocus m 2, Cmd.none, none)
    else if s = str "tab" then (focusNext m, Cmd.none, none)
    else if s = str "shift+tab" then (focusPrev m, Cmd.none, none)
    else (routeToFocused m (Msg.key s), Cmd.none, none)

/-! ### Index generator (internal/readme)

The `internal/readme` package is not part of this repository's sources (only
its caller `runReadme` in cmd/crumb/main.go is), so this component is
modelled from the spec, §4.3: scan the directory, parse the front matter of
each markdown file, skip files lacking well-formed front matter, sort rows
by date descending (unparsable dates last, in listing order), and render a
markdown table (Date, Author, Tool, Tags, Title). -/

namespace readme

/-- Split a rune list at every occurrence of `sep` (the line splitter; never
returns an empty list). -/
def splitOn (sep : Nat) : List Nat → List (List Nat)
  | [] => [[]]
  | c :: rest =>
    let r := splitOn sep rest
    if c = sep then [] :: r
    else
      match r with
      | [] => [[c]]
      | l :: ls => (c :: l) :: ls

/-- Modelled from the spec: front matter is "delimited by a `---` line, a
block of `key: value` (and `key:` + `  - item` list) pairs, and a closing
`---` line".  The parsed block: scalar fields and list fields. -/
structure FrontMatter where
  kvs : List (List Nat × List Nat)
  lists : List (List Nat × List (List Nat))
  deriving DecidableEq

/-- Append an item to the list field `k` (creating it on first use). -/
def fmConsItem (k item : List Nat) : FrontMatter → FrontMatter
  | ⟨kvs, lists⟩ =>
    match lists.find? (fun p => p.1 == k) with
    | some _ => ⟨kvs, lists.map (fun p => if p.1 == k then (p.1, item :: p.2) else p)⟩
    | none => ⟨kvs, (k, [item]) :: lists⟩

/-- Split a front-matter line at its first colon: `key: value` yields the
pair, a bare `key:` opens a list field, anything else is malformed. -/
def splitKV : List Nat → Option (List Nat × Option (List Nat))
  | [] => none
  | 58 :: rest =>
    match rest with
    | [] => some ([], none)
    | 32 :: v => some ([], some v)
    | _ => none
  | c :: rest => (splitKV rest).map (fun p => (c :: p.1, p.2))

/-- Parse the lines between the two `---` delimiters; `cur` is the list
field opened by the preceding bare `key:` line, if any.  Any line that is
neither a `key: value` pair, a bare `key:`, nor a `  - item` under an open
list key makes the whole block malformed. -/
def parseBody (cur : Option (List Nat)) : List (List Nat) → Option FrontMatter
  | [] => some ⟨[], []⟩
  | line :: rest =>
    if line.take 4 = str "  - " then
      match cur with
      | some k => (parseBody cur rest).map (fmConsItem k (line.drop 4))
      | none => none
    else
      match splitKV line with
      | some (k, some v) => (parseBody none rest).map (fun fm => ⟨(k, v) :: fm.kvs, fm.lists⟩)
      | some (k, none) => parseBody (some k) rest
      | none => none

/-- The lines of the front-matter block: everything up to the closing `---`
line, or `none` when no closing delimiter exists. -/
def takeUntilClose : List (List Nat) → Option (List (List Nat))
  | [] => none
  | l :: ls => if l = str "---" then some [] else (takeUntilClose ls).map (l :: ·)

/-- Modelled from the spec: parse a file's front matter; `none` (file
skipped) unless the file starts with a `---` line, has a closing `---` line,
and every line between them is well-formed. -/
def parseFrontMatter (content : List Nat) : Option FrontMatter :=
  match splitOn 10 content with
  | [] => none
  | l0 :: rest =>
    if l0 = str "---" then
      match takeUntilClose rest with
      | some body => parseBody none body
      | none => none
    else none

/-- Scalar field lookup with empty-string default. -/
def fmGet (fm : FrontMatter) (k : List Nat) : List Nat :=
  ((fm.kvs.find? (fun p => p.1 == k)).map Prod.snd).getD []

/-- List field lookup with empty default. -/
def fmGetList (fm : FrontMatter) (k : List Nat) : List (List Nat) :=
  ((fm.lists.find? (fun p => p.1 == k)).map Prod.snd).getD []

/-- One table row of the index. -/
structure Row where
  date : List Nat
  author : List Nat
  tool : List Nat
  tags : List (List Nat)
  title : List Nat
  deriving DecidableEq

/-- Build a row from a parsed front-matter block. -/
def mkRow (fm : FrontMatter) : Row :=
  ⟨fmGet fm (str "date"), fmGet fm (str "author"), fmGet fm (str "tool"),
    fmGetList fm (str "tags"), fmGet fm (str "title")⟩

/-- Shape check for the `YYYY-MM-DDTHH:MM:SS` core of an ISO-8601 timestamp. -/
def dateShape : List Nat → Bool
  | [y1, y2, y3, y4, s1, mo1, mo2, s2, d1, d2, t, h1, h2, c1, mi1, mi2, c2, se1, se2] =>
    go_isDigit y1 && go_isDigit y2 && go_isDigit y3 && go_isDigit y4 && s1 == 45 &&
    go_isDigit mo1 && go_isDigit mo2 && s2 == 45 && go_isDigit d1 && go_isDigit d2 &&
    t == 84 && go_isDigit h1 && go_isDigit h2 && c1 == 58 && go_isDigit mi1 &&
    go_isDigit mi2 && c2 == 58 && go_isDigit se1 && go_isDigit se2
  | _ => false

/-- Modelled from the spec: the sort key of a row is its `date` field
"parsed as an ISO-8601 timestamp"; `none` (sorts last) when unparsable.  On
the well-formed fixed-width core, chronological order coincides with
lexicographic order on the key. -/
def rowKey (r : Row) : Option (List Nat) :=
  let core := r.date.take 19
  if dateShape core then some core else none

/-- Lexicographic strict order on rune lists (by code point). -/
def lexLT : List Nat → List Nat → Bool
  | [], [] => false
  | [], _ :: _ => true
  | _ :: _, [] => false
  | a :: as, b :: bs =>
    if a < b then true
    else if b < a then false
    else lexLT as bs

/-- Key comparison for the descending sort: `keyGT a b` iff a row with key
`a` must appear strictly before a row with key `b` can be ruled out — i.e.
`a` is strictly greater; an unparsable key is smaller than everything. -/
def keyGT : Option (List Nat) → Option (List Nat) → Bool
  | some a, some b => lexLT b a
  | some _, none => true
  | none, _ => false

/-- Stable insertion for the date-descending sort: a row is placed after
every earlier row with a strictly greater key and before the first row whose
key is not strictly greater (so equal keys and unparsable dates keep listing
order). -/
def insertRow (r : Row) : List Row → List Row
  | [] => [r]
  | x :: xs => if keyGT (rowKey x) (rowKey r) then x :: insertRow r xs else r :: x :: xs

/-- Stable sort of the rows, newest first. -/
def sortRows (rows : List Row) : List Row :=
  rows.foldr insertRow []

/-- Comma-join of the tag list. -/
def joinComma : List (List Nat) → List Nat
  | [] => []
  | [t] => t
  | t :: ts => t ++ str ", " ++ joinComma ts

/-- Render one table row (the Date column shows the calendar date). -/
def renderRow (r : Row) : List Nat :=
  str "| " ++ r.date.take 10 ++ str " | " ++ r.author ++ str " | " ++ r.tool ++
  str " | " ++ joinComma r.tags ++ str " | " ++ r.title ++ str " |\n"

/-- Fixed document head, ending in the table header (spec §6: "a markdown
table with header `| Date | Author | Tool | Tags | Title |`"). -/
def indexHeader : List Nat :=
  str "# Prompts\n\n## Index\n\n| Date | Author | Tool | Tags | Title |\n|------|--------|------|------|-------|\n"

/-- Fixed document tail. -/
def indexFooter : List Nat :=
  str "\n---\n*Run crumb readme to regenerate this index.*\n"

/-- A directory, as the listing of its files: `(name, content)` pairs in
listing order. -/
abbrev Dir : Type := List (List Nat × List Nat)

/-- The rows scanned from a directory: one per markdown file with
well-formed front matter, in listing order. -/
def rowsOf (dir : Dir) : List Row :=
  (dir.filter (fun f => (str ".md").isSuffixOf f.1)).filterMap
    (fun f => (parseFrontMatter f.2).map mkRow)

/-- Modelled from the spec: `readme.Generate(dir)` — parse the front matter
of every markdown file (files lacking well-formed front matter are skipped),
sort rows by date descending, and render the index document. -/
def Generate (dir : Dir) : List Nat :=
  indexHeader ++ (sortRows (rowsOf dir)).foldl (fun acc r => acc ++ renderRow r) [] ++ indexFooter

/-- Model of `os.WriteFile` into the directory listing: replace the content
of `name` in place, or add the file when absent. -/
def writeFile : Dir → List Nat → List Nat → Dir
  | [], name, c => [(name, c)]
  | (n, c0) :: rest, name, c =>
    if n = name then (n, c) :: rest else (n, c0) :: writeFile rest name c

end readme

/-! ### Reference functions used only to state claims -/

/-- Keep the first occurrence of every element (reference function for the
duplicate-removal claim about `mergeTagSuggestions`). -/
def firstDedup : List (List Nat) → List (List Nat)
  | [] => []
  | t :: ts => t :: firstDedup (ts.filter (fun x => decide (x ≠ t)))
termination_by l => l.length
decreasing_by
  simp only [List.length_cons]
  exact Nat.lt_succ_of_le (List.length_filter_le _ _)

/-- The specification-shaped description of `mergeTagSuggestions`: the
favorites with first occurrences kept, followed by the frequent tags that do
not occur among the favorites, deduplicated in order. -/
def mergeSpec (favorites frequent : List (List Nat)) : List (List Nat) :=
  firstDedup favorites ++ firstDedup (frequent.filter (fun t => decide (t ∉ favorites)))

/-- Absence of two adjacent characters both satisfying `p` (the state after
a `collapseRunsBy p`). -/
def NoRun (p : Nat → Bool) (l : List Nat) : Prop :=
  List.Chain' (fun a b => ¬(p a = true ∧ p b = true)) l

/-- Bytes that survive a further pass of `Slugify` unchanged: ASCII, kept by
the filter and fixed by lowercasing. -/
def SlugP (c : Nat) : Prop :=
  c < 128 ∧ isSlugKeep c = true ∧ go_toLower c = c

/-- The invariant established by `Slugify` on its output (and under which a
further application is the identity). -/
def SlugInv (l : List Nat) : Prop :=
  (∀ c ∈ l, SlugP c) ∧ NoRun (fun c => c == 45) l ∧
  l.head? ≠ some 45 ∧ l.getLast? ≠ some 45 ∧ l.length ≤ 50

/-- Fixture: the prompt textarea of the sample model. -/
def fixturePrompt : Textarea :=
  { value := str "hello world", focused := true, height := 8, width := 80 }

/-- Fixture: a sample form state (focus on the prompt, stay-open session). -/
def fixtureModel : Model :=
  { prompt := fixturePrompt
    tags := NewTagInput [str "debugging"]
    output := { value := [], focused := false, height := 6, width := 80 }
    toolSelect :=
      { options := [str "Claude Code", str "Cursor"], selectedIdx := 0,
        selected := str "Claude Code", focused := false }
    focusIndex := 0
    showHelp := false
    showToast := false
    toastMsg := []
    isError := false
    favoriteTags := [str "debugging", str "design"]
    stayOpen := true
    width := 80
    height := 24 }

/-- Fixture: the same form state with a whitespace-only prompt. -/
def fixtureModelBlank : Model :=
  { fixtureModel with prompt := { fixturePrompt with value := str "  \t " } }

/-- Fixture: the same form state with the help overlay visible. -/
def fixtureModelHelp : Model :=
  { fixtureModel with showHelp := true }

/-- Fixture: a sample environment whose save succeeds. -/
def fixtureEnv : Env :=
  { gitAuthor := str "Alice"
    now := ⟨2024, 1, 15⟩
    nowRFC3339 := str "2024-01-15T10:00:00Z"
    freshFrequent := [str "design", str "refactoring"]
    saveResult := Except.ok (str "/repo/crumbs/2024-01-15-hello-world.md") }

/-- Fixture: a directory listing with one entry file and a stale index. -/
def fixtureDir : readme.Dir :=
  [(str "2024-01-15-fix-the-bug.md",
    str "---\ntitle: Fix the bug\ndate: 2024-01-15T10:00:00Z\nauthor: Alice\ntool: Cursor\ntags:\n  - debugging\n---\n\n## Prompt\n\nfix it\n"),
   (str "README.md", str "# Prompts\n\nstale index")]


/-- Fixture: 17 CJK ideographs "世" (U+4E16), 51 UTF-8 bytes — the 50-byte
cap splits the 17th character. -/
def cjkSlugInput : List Nat := utf8Encode (List.replicate 17 0x4E16)

/-- Fixture: 51 CJK ideographs, 153 UTF-8 bytes but 51 characters. -/
def cjkTitleInput : List Nat := utf8Encode (List.replicate 51 0x4E16)

/-- Fixture: 50 CJK ideographs, 150 UTF-8 bytes but only 50 characters. -/
def cjkPromptInput : List Nat := utf8Encode (List.replicate 50 0x4E16)

/-! ## Theorems -/

/-! ### UTF-8 lemmas -/

theorem utf8EncodeChar_ascii {r : Nat} (h : r < 0x80) : utf8EncodeChar r = [r] := by
  unfold utf8EncodeChar
  rw [if_pos h]

theorem utf8Encode_ascii : ∀ {l : List Nat}, (∀ r ∈ l, r < 128) → utf8Encode l = l := by
  intro l
  induction l with
  | nil => intro _; rfl
  | cons r rs ih =>
    intro h
    show utf8EncodeChar r ++ utf8Encode rs = r :: rs
    rw [utf8EncodeChar_ascii (h r (by simp)), ih (fun x hx => h x (by simp [hx]))]
    rfl

theorem utf8Decode_cons_ascii {b0 : Nat} (h : b0 < 0x80) (rest : List Nat) :
    utf8Decode (b0 :: rest) = b0 :: utf8Decode rest := by
  match rest with
  | [] => simp [utf8Decode, h]
  | [b1] =>
    conv_lhs => rw [utf8Decode]
    rw [if_pos h]
  | [b1, b2] =>
    conv_lhs => rw [utf8Decode]
    rw [if_pos h]
  | b1 :: b2 :: b3 :: r =>
    conv_lhs => rw [utf8Decode]
    rw [if_pos h]

theorem utf8Decode_ascii : ∀ {l : List Nat}, (∀ b ∈ l, b < 128) → utf8Decode l = l := by
  intro l
  induction l with
  | nil => intro _; rfl
  | cons b0 rest ih =>
    intro h
    rw [utf8Decode_cons_ascii (h b0 (by simp)), ih (fun x hx => h x (by simp [hx]))]

theorem utf8Decode_cons2 {b0 b1 : Nat} (h0 : 0xC2 ≤ b0 ∧ b0 ≤ 0xDF)
    (h1 : 0x80 ≤ b1 ∧ b1 ≤ 0xBF) (rest : List Nat) :
    utf8Decode (b0 :: b1 :: rest) = ((b0 - 0xC0) * 64 + (b1 - 0x80)) :: utf8Decode rest := by
  match rest with
  | [] =>
    conv_lhs => rw [utf8Decode]
    rw [if_neg (by omega), if_pos h0, if_pos h1]
    rfl
  | [b2] =>
    conv_lhs => rw [utf8Decode]
    rw [if_neg (by omega), if_pos h0, if_pos h1]
  | b2 :: b3 :: r =>
    conv_lhs => rw [utf8Decode]
    rw [if_neg (by omega), if_pos h0, if_pos h1]

theorem utf8Decode_cons3 {b0 b1 b2 : Nat} (h0 : 0xE0 ≤ b0 ∧ b0 ≤ 0xEF)
    (ha : utf8Accept3 b0 b1 b2) (rest : List Nat) :
    utf8Decode (b0 :: b1 :: b2 :: rest) =
      ((b0 - 0xE0) * 4096 + (b1 - 0x80) * 64 + (b2 - 0x80)) :: utf8Decode rest := by
  have hnb2 : ¬(0xC2 ≤ b0 ∧ b0 ≤ 0xDF) := by omega
  match rest with
  | [] =>
    conv_lhs => rw [utf8Decode]
    rw [if_neg (by omega), if_neg hnb2, if_pos h0, if_pos ha]
    rfl
  | b3 :: r =>
    conv_lhs => rw [utf8Decode]
    rw [if_neg (by omega), if_neg hnb2, if_pos h0, if_pos ha]

theorem utf8Decode_cons4 {b0 b1 b2 b3 : Nat} (h0 : 0xF0 ≤ b0 ∧ b0 ≤ 0xF4)
    (ha : utf8Accept4 b0 b1 b2 b3) (rest : List Nat) :
    utf8Decode (b0 :: b1 :: b2 :: b3 :: rest) =
      ((b0 - 0xF0) * 0x40000 + (b1 - 0x80) * 4096 + (b2 - 0x80) * 64 + (b3 - 0x80)) ::
        utf8Decode rest := by
  conv_lhs => rw [utf8Decode]
  rw [if_neg (by omega), if_neg (by omega), if_neg (by omega), if_pos h0, if_pos ha]

theorem utf8Decode_encodeChar {r : Nat} (hv : validScalar r) (rest : List Nat) :
    utf8Decode (utf8EncodeChar r ++ rest) = r :: utf8Decode rest := by
  rcases Nat.lt_or_ge r 0x80 with h1 | h1
  · rw [utf8EncodeChar_ascii h1]
    exact utf8Decode_cons_ascii h1 rest
  · rcases Nat.lt_or_ge r 0x800 with h2 | h2
    · rw [show utf8EncodeChar r = [0xC0 + r / 64, 0x80 + r % 64] from by
        unfold utf8EncodeChar; rw [if_neg (by omega), if_pos h2]]
      rw [List.cons_append, List.cons_append, List.nil_append]
      rw [utf8Decode_cons2 (by omega) (by omega) rest]
      congr 1
      omega
    · rcases Nat.lt_or_ge r 0x10000 with h3 | h3
      · have hs : ¬(0xD800 ≤ r ∧ r < 0xE000) := by
          rcases hv with hv | hv <;> omega
        rw [show utf8EncodeChar r = [0xE0 + r / 4096, 0x80 + (r / 64) % 64, 0x80 + r % 64] from by
          unfold utf8EncodeChar; rw [if_neg (by omega), if_neg (by omega), if_neg hs, if_pos h3]]
        rw [List.cons_append, List.cons_append, List.cons_append, List.nil_append]
        rw [utf8Decode_cons3 (by omega) ?acc rest]
        case acc =>
          refine ⟨?_, by omega, by omega⟩
          rcases Nat.lt_or_ge r 0x1000 with h4 | h4
          · exact Or.inl ⟨by omega, by omega, by omega⟩
          · rcases Nat.lt_or_ge r 0xD000 with h5 | h5
            · refine Or.inr (Or.inr ⟨by omega, by omega, by omega, by omega⟩)
            · rcases Nat.lt_or_ge r 0xE000 with h6 | h6
              · have hr : r < 0xD800 := by rcases hv with hv | hv <;> omega
                exact Or.inr (Or.inl ⟨by omega, by omega, by omega⟩)
              · refine Or.inr (Or.inr ⟨by omega, by omega, by omega, by omega⟩)
        congr 1
        omega
      · have h4 : r ≤ 0x10FFFF := by
          rcases hv with hv | hv <;> omega
        rw [show utf8EncodeChar r =
            [0xF0 + r / 0x40000, 0x80 + (r / 4096) % 64, 0x80 + (r / 64) % 64, 0x80 + r % 64] from by
          unfold utf8EncodeChar
          rw [if_neg (by omega), if_neg (by omega), if_neg (by omega), if_neg (by omega),
            if_pos h4]]
        rw [List.cons_append, List.cons_append, List.cons_append, List.cons_append,
          List.nil_append]
        rw [utf8Decode_cons4 (by omega) ?acc4 rest]
        case acc4 =>
          refine ⟨?_, ⟨by omega, by omega⟩, by omega, by omega⟩
          rcases Nat.lt_or_ge r 0x40000 with h5 | h5
          · exact Or.inl ⟨by omega, by omega, by omega⟩
          · rcases Nat.lt_or_ge r 0x100000 with h6 | h6
            · refine Or.inr (Or.inr ⟨by omega, by omega, by omega, by omega⟩)
            · exact Or.inr (Or.inl ⟨by omega, by omega, by omega⟩)
        congr 1
        omega

theorem utf8Decode_encode : ∀ {rs : List Nat}, (∀ r ∈ rs, validScalar r) →
    utf8Decode (utf8Encode rs) = rs := by
  intro rs
  induction rs with
  | nil => intro _; rfl
  | cons r rest ih =>
    intro h
    show utf8Decode (utf8EncodeChar r ++ utf8Encode rest) = r :: rest
    rw [utf8Decode_encodeChar (h r (by simp)), ih (fun x hx => h x (by simp [hx]))]

/-! ### Character-class and combinator lemmas -/

theorem go_toLower_eq_self {c : Nat} (h : ¬(65 ≤ c ∧ c ≤ 90)) :
    go_toLower c = c := by
  unfold go_toLower
  rw [if_neg h]

theorem go_toLower_idem (c : Nat) : go_toLower (go_toLower c) = go_toLower c := by
  unfold go_toLower
  repeat' split
  all_goals omega

theorem isSlugKeep_ne_space {c : Nat} (h : isSlugKeep c = true) : c ≠ 32 := by
  simp only [isSlugKeep, go_isLetter, go_isDigit, Bool.or_eq_true, decide_eq_true_eq,
    Bool.and_eq_true, beq_iff_eq] at h
  omega

theorem isSlugKeep_ne_underscore {c : Nat} (h : isSlugKeep c = true) : c ≠ 95 := by
  simp only [isSlugKeep, go_isLetter, go_isDigit, Bool.or_eq_true, decide_eq_true_eq,
    Bool.and_eq_true, beq_iff_eq] at h
  omega

theorem re_isSpace_sub_go {c : Nat} (h : re_isSpace c = true) : go_isSpace c = true := by
  simp only [re_isSpace, Bool.or_eq_true, beq_iff_eq] at h
  simp only [go_isSpace, Bool.or_eq_true, beq_iff_eq]
  omega

/-! ### Generic list helper lemmas -/

theorem map_eq_self_of {α : Type} {f : α → α} :
    ∀ {l : List α}, (∀ c ∈ l, f c = c) → l.map f = l := by
  intro l
  induction l with
  | nil => intro _; rfl
  | cons a t ih =>
    intro h
    simp only [List.map_cons]
    rw [h a (by simp), ih (fun c hc => h c (by simp [hc]))]

theorem replaceChar_eq_self {a b : Nat} {l : List Nat} (h : ∀ c ∈ l, c ≠ a) :
    replaceChar a b l = l := by
  unfold replaceChar
  exact map_eq_self_of (fun c hc => if_neg (h c hc))

theorem head?_dropWhile_p {p : Nat → Bool} :
    ∀ {l : List Nat} {a : Nat}, (l.dropWhile p).head? = some a → p a = false := by
  intro l
  induction l with
  | nil => intro a h; simp [List.dropWhile] at h
  | cons x xs ih =>
    intro a h
    rw [List.dropWhile_cons] at h
    by_cases hp : p x = true
    · rw [if_pos hp] at h
      exact ih h
    · rw [if_neg hp] at h
      simp only [List.head?_cons, Option.some.injEq] at h
      subst h
      exact Bool.not_eq_true _ ▸ hp

theorem dropWhile_eq_self {p : Nat → Bool} {l : List Nat}
    (h : ∀ a, l.head? = some a → p a = false) : l.dropWhile p = l := by
  cases l with
  | nil => rfl
  | cons x xs =>
    rw [List.dropWhile_cons, if_neg]
    rw [h x rfl]
    simp

theorem dropWhile_isSuf {p : Nat → Bool} : ∀ l : List Nat, l.dropWhile p <:+ l := by
  intro l
  induction l with
  | nil => exact ⟨[], rfl⟩
  | cons x xs ih =>
    rw [List.dropWhile_cons]
    by_cases hp : p x = true
    · rw [if_pos hp]
      obtain ⟨t, ht⟩ := ih
      exact ⟨x :: t, by simp [ht]⟩
    · rw [if_neg hp]

theorem head?_of_isPre {α : Type} {l₁ l₂ : List α} (h : l₁ <+: l₂) {a : α}
    (ha : l₁.head? = some a) : l₂.head? = some a := by
  obtain ⟨t, rfl⟩ := h
  cases l₁ with
  | nil => simp at ha
  | cons x xs =>
    simp only [List.head?_cons, Option.some.injEq] at ha
    simp [ha]

theorem head?_take {α : Type} {n : Nat} (hn : 0 < n) (l : List α) :
    (l.take n).head? = l.head? := by
  cases l with
  | nil => simp
  | cons x xs =>
    cases n with
    | zero => omega
    | succ m => simp [List.take]

/-! ### Run-collapsing lemmas -/

theorem collapse_eq_self {p : Nat → Bool} {rep : Nat} :
    ∀ {l : List Nat}, NoRun p l → (∀ c ∈ l, p c = true → c = rep) →
      collapseRunsBy p rep l = l := by
  intro l
  induction l with
  | nil => intro _ _; rfl
  | cons a t ih =>
    cases t with
    | nil =>
      intro _ h
      by_cases hpa : p a = true
      · simp only [collapseRunsBy, if_pos hpa]
        rw [h a (by simp) hpa]
      · simp [collapseRunsBy, hpa]
    | cons b r =>
      intro hc h
      have hr := (List.chain'_cons.mp hc).1
      have hab : (p a && p b) = false := by
        cases hgoal : p a && p b
        · rfl
        · exact absurd (by simpa using hgoal) hr
      simp only [collapseRunsBy, hab, Bool.false_eq_true, if_false]
      have htail := ih (List.chain'_cons.mp hc).2 (fun c hcm hpc => h c (by simp [hcm]) hpc)
      rw [htail]
      by_cases hpa : p a = true
      · rw [if_pos hpa, (h a (by simp) hpa)]
      · rw [if_neg hpa]

theorem collapse_ne_nil {p : Nat → Bool} {rep : Nat} :
    ∀ {l : List Nat}, l ≠ [] → collapseRunsBy p rep l ≠ [] := by
  intro l
  induction l with
  | nil => intro h; exact absurd rfl h
  | cons a t ih =>
    cases t with
    | nil =>
      intro _
      by_cases hpa : p a = true <;> simp [collapseRunsBy, hpa]
    | cons b r =>
      intro _
      by_cases hab : (p a && p b) = true
      · simp only [collapseRunsBy, hab, if_true]
        exact ih (by simp)
      · simp only [collapseRunsBy, hab, if_false]
        simp

theorem collapse_head_p {p : Nat → Bool} {rep : Nat} :
    ∀ {l : List Nat} {y : Nat}, (collapseRunsBy p rep l).head? = some y → p y = true →
      ∃ x, l.head? = some x ∧ p x = true := by
  intro l
  induction l with
  | nil => intro y h _; simp [collapseRunsBy] at h
  | cons a t ih =>
    cases t with
    | nil =>
      intro y h hy
      by_cases hpa : p a = true
      · exact ⟨a, rfl, hpa⟩
      · simp only [collapseRunsBy, hpa, Bool.false_eq_true, if_false,
          List.head?_cons, Option.some.injEq] at h
        subst h
        exact absurd hy (by simp [hpa])
    | cons b r =>
      intro y h hy
      by_cases hab : (p a && p b) = true
      · have hpa : p a = true := by
          have := hab
          simp only [Bool.and_eq_true] at this
          exact this.1
        exact ⟨a, rfl, hpa⟩
      · have hab' : (p a && p b) = false := by simpa using hab
        simp only [collapseRunsBy, hab', Bool.false_eq_true, if_false,
          List.head?_cons, Option.some.injEq] at h
        subst h
        by_cases hpa : p a = true
        · exact ⟨a, rfl, hpa⟩
        · rw [if_neg hpa] at hy
          exact absurd hy (by simp [hpa])

theorem noRun_collapse {p : Nat → Bool} {rep : Nat} :
    ∀ l : List Nat, NoRun p (collapseRunsBy p rep l) := by
  intro l
  induction l with
  | nil => exact List.chain'_nil
  | cons a t ih =>
    cases t with
    | nil =>
      by_cases hpa : p a = true <;> simp [collapseRunsBy, hpa, NoRun]
    | cons b r =>
      by_cases hab : (p a && p b) = true
      · simpa only [collapseRunsBy, hab, if_true] using ih
      · have hab' : (p a && p b) = false := by simpa using hab
        simp only [collapseRunsBy, hab', Bool.false_eq_true, if_false]
        rw [NoRun, List.chain'_cons']
        refine ⟨?_, ih⟩
        intro y hy
        intro ⟨h1, h2⟩
        have hy' : (collapseRunsBy p rep (b :: r)).head? = some y := Option.mem_def.mp hy
        obtain ⟨x, hx, hpx⟩ := collapse_head_p hy' h2
        simp only [List.head?_cons, Option.some.injEq] at hx
        subst hx
        by_cases hpa : p a = true
        · simp [hpa, hpx] at hab'
        · rw [if_neg hpa] at h1
          exact absurd h1 hpa

theorem mem_collapse {p : Nat → Bool} {rep : Nat} :
    ∀ {l : List Nat} {c : Nat}, c ∈ collapseRunsBy p rep l → c ∈ l ∨ c = rep := by
  intro l
  induction l with
  | nil => intro c h; simp [collapseRunsBy] at h
  | cons a t ih =>
    cases t with
    | nil =>
      intro c h
      by_cases hpa : p a = true
      · simp only [collapseRunsBy, hpa, if_true, List.mem_singleton] at h
        exact Or.inr h
      · simp only [collapseRunsBy, hpa, Bool.false_eq_true, if_false, List.mem_singleton] at h
        exact Or.inl (by simp [h])
    | cons b r =>
      intro c h
      by_cases hab : (p a && p b) = true
      · simp only [collapseRunsBy, hab, if_true] at h
        rcases ih h with hm | hm
        · refine Or.inl ?_
          simp only [List.mem_cons] at hm ⊢
          tauto
        · exact Or.inr hm
      · have hab' : (p a && p b) = false := by simpa using hab
        simp only [collapseRunsBy, hab', Bool.false_eq_true, if_false, List.mem_cons] at h
        rcases h with hm | hm
        · by_cases hpa : p a = true
          · rw [if_pos hpa] at hm
            exact Or.inr hm
          · rw [if_neg hpa] at hm
            exact Or.inl (by simp [hm])
        · rcases ih hm with hm2 | hm2
          · refine Or.inl ?_
            simp only [List.mem_cons] at hm2 ⊢
            tauto
          · exact Or.inr hm2

theorem collapse_head_of_not_p {p : Nat → Bool} {rep : Nat} {b : Nat} {r : List Nat}
    (hb : p b = false) : (collapseRunsBy p rep (b :: r)).head? = some b := by
  cases r with
  | nil => simp [collapseRunsBy, hb]
  | cons c r' =>
    have hab : (p b && p c) = false := by simp [hb]
    simp [collapseRunsBy, hab, hb]

/-! ### Trimming lemmas -/

theorem goTrimBy_isPre_dropWhile {p : Nat → Bool} (l : List Nat) :
    goTrimBy p l <+: l.dropWhile p := by
  unfold goTrimBy
  apply List.reverse_suffix.mp
  rw [List.reverse_reverse]
  exact dropWhile_isSuf _

theorem goTrimBy_isInf {p : Nat → Bool} (l : List Nat) : goTrimBy p l <:+: l := by
  obtain ⟨t, ht⟩ := goTrimBy_isPre_dropWhile (p := p) l
  obtain ⟨s, hs⟩ := dropWhile_isSuf (p := p) l
  refine ⟨s, t, ?_⟩
  rw [List.append_assoc, ht, hs]

theorem goTrimBy_head {p : Nat → Bool} {l : List Nat} {a : Nat}
    (h : (goTrimBy p l).head? = some a) : p a = false :=
  head?_dropWhile_p (head?_of_isPre (goTrimBy_isPre_dropWhile l) h)

theorem goTrimBy_getLast {p : Nat → Bool} {l : List Nat} {a : Nat}
    (h : (goTrimBy p l).getLast? = some a) : p a = false := by
  apply head?_dropWhile_p (p := p) (l := (l.dropWhile p).reverse)
  rw [← List.head?_reverse] at h
  unfold goTrimBy at h
  rw [List.reverse_reverse] at h
  exact h

theorem goTrimBy_eq_self {p : Nat → Bool} {l : List Nat}
    (hh : ∀ a, l.head? = some a → p a = false)
    (hl : ∀ a, l.getLast? = some a → p a = false) : goTrimBy p l = l := by
  unfold goTrimBy
  rw [dropWhile_eq_self hh]
  rw [dropWhile_eq_self (fun a ha => hl a (by rw [← List.head?_reverse]; exact ha))]
  exact List.reverse_reverse l

/-! ### Last-index lemmas -/

theorem lastIdx?_none {c : Nat} :
    ∀ {l : List Nat}, lastIdx? c l = none → ∀ x ∈ l, x ≠ c := by
  intro l
  induction l with
  | nil => intro _ x hx; simp at hx
  | cons a t ih =>
    intro h x hx
    unfold lastIdx? at h
    cases hrec : lastIdx? c t with
    | some i => rw [hrec] at h; simp at h
    | none =>
      rw [hrec] at h
      by_cases hac : a = c
      · rw [if_pos hac] at h; simp at h
      · rcases List.mem_cons.mp hx with hx' | hx'
        · rw [hx']; exact hac
        · exact ih hrec x hx'

theorem lastIdx?_some {c : Nat} :
    ∀ {l : List Nat} {i : Nat}, lastIdx? c l = some i → i < l.length ∧ l[i]? = some c := by
  intro l
  induction l with
  | nil => intro i h; simp [lastIdx?] at h
  | cons a t ih =>
    intro i h
    unfold lastIdx? at h
    cases hrec : lastIdx? c t with
    | some j =>
      rw [hrec] at h
      simp only [Option.some.injEq] at h
      subst h
      obtain ⟨hlt, hget⟩ := ih hrec
      refine ⟨by simpa using hlt, ?_⟩
      simpa using hget
    | none =>
      rw [hrec] at h
      by_cases hac : a = c
      · rw [if_pos hac] at h
        simp only [Option.some.injEq] at h
        subst h
        exact ⟨by simp, by simp [hac]⟩
      · rw [if_neg hac] at h; simp at h

theorem lastIdx?_last {c : Nat} :
    ∀ {l : List Nat} {i : Nat}, lastIdx? c l = some i →
      ∀ j, i < j → l[j]? ≠ some c := by
  intro l
  induction l with
  | nil => intro i h; simp [lastIdx?] at h
  | cons a t ih =>
    intro i h j hij
    unfold lastIdx? at h
    cases hrec : lastIdx? c t with
    | some k =>
      rw [hrec] at h
      simp only [Option.some.injEq] at h
      subst h
      cases j with
      | zero => omega
      | succ j' =>
        have := ih hrec j' (by omega)
        simpa using this
    | none =>
      rw [hrec] at h
      by_cases hac : a = c
      · rw [if_pos hac] at h
        simp only [Option.some.injEq] at h
        subst h
        cases j with
        | zero => omega
        | succ j' =>
          intro hj
          simp only [List.getElem?_cons_succ] at hj
          have hmem : c ∈ t := by
            obtain ⟨hlt, he⟩ := List.getElem?_eq_some_iff.mp hj
            exact he ▸ List.getElem_mem hlt
          exact lastIdx?_none hrec c hmem rfl
      · rw [if_neg hac] at h; simp at h

theorem goLastIndexChar_none {s : List Nat} {c : Nat} (h : lastIdx? c s = none) :
    goLastIndexChar s c = -1 := by
  simp [goLastIndexChar, h]

theorem goLastIndexChar_some {s : List Nat} {c : Nat} {i : Nat}
    (h : lastIdx? c s = some i) : goLastIndexChar s c = i := by
  simp [goLastIndexChar, h]

/-! ### Truncation (`goCapAt`) lemmas -/

theorem goCapAt_length (limit : Nat) (cut : Nat) (s : List Nat) :
    (goCapAt limit cut s).length ≤ limit := by
  simp only [goCapAt]
  split
  case isTrue h =>
    split
    case isTrue h2 =>
      simp only [List.length_take]
      omega
    case isFalse h2 =>
      simp only [List.length_take]
      omega
  case isFalse h => omega

theorem goCapAt_eq_of_le {limit : Nat} {cut : Nat} {s : List Nat}
    (h : s.length ≤ limit) : goCapAt limit cut s = s := by
  simp only [goCapAt]
  rw [if_neg (by omega)]

theorem goCapAt_head {limit : Nat} {cut : Nat} {s : List Nat} (hlim : 0 < limit) :
    (goCapAt limit cut s).head? = s.head? := by
  simp only [goCapAt]
  split
  case isFalse h => rfl
  case isTrue h =>
    split
    case isFalse h2 => exact head?_take hlim s
    case isTrue h2 =>
      rw [head?_take ?ht (s.take limit), head?_take hlim s]
      case ht =>
        cases hli : lastIdx? cut (s.take limit) with
        | none => rw [goLastIndexChar_none hli] at h2; omega
        | some i =>
          rw [goLastIndexChar_some hli] at h2
          have hi : 0 < i := by exact_mod_cast h2
          rw [goLastIndexChar_some hli, Int.toNat_ofNat]
          exact hi

theorem goCapAt_mem {limit : Nat} {cut : Nat} {s : List Nat} {c : Nat}
    (h : c ∈ goCapAt limit cut s) : c ∈ s := by
  simp only [goCapAt] at h
  split at h
  case isFalse => exact h
  case isTrue =>
    split at h
    case isTrue => exact List.take_subset _ _ (List.take_subset _ _ h)
    case isFalse => exact List.take_subset _ _ h

theorem goCapAt_noRun {p : Nat → Bool} {limit : Nat} {cut : Nat} {s : List Nat}
    (h : NoRun p s) : NoRun p (goCapAt limit cut s) := by
  simp only [goCapAt]
  split
  case isFalse => exact h
  case isTrue =>
    split
    case isTrue => exact List.Chain'.take (List.Chain'.take h _) _
    case isFalse => exact List.Chain'.take h _

theorem goCapAt_getLast {limit : Nat} {cut : Nat} {s : List Nat}
    (hrun : NoRun (fun c => c == cut) s)
    (hh : s.head? ≠ some cut) (hl : s.getLast? ≠ some cut) :
    (goCapAt limit cut s).getLast? ≠ some cut := by
  simp only [goCapAt]
  split
  case isFalse => exact hl
  case isTrue h =>
    have hlen : (s.take limit).length = limit := by
      rw [List.length_take]
      omega
    cases hli : lastIdx? cut (s.take limit) with
    | none =>
      rw [goLastIndexChar_none hli, if_neg (by omega)]
      intro hc
      have hmem : cut ∈ s.take limit := by
        obtain ⟨hlt, he⟩ := List.getElem?_eq_some_iff.mp (List.getLast?_eq_getElem? _ ▸ hc)
        exact he ▸ List.getElem_mem hlt
      exact lastIdx?_none hli cut hmem rfl
    | some i =>
      obtain ⟨hilt, higet⟩ := lastIdx?_some hli
      by_cases hi : 0 < i
      · rw [goLastIndexChar_some hli, if_pos (by exact_mod_cast hi), Int.toNat_ofNat]
        intro hc
        have hchain : NoRun (fun c => c == cut) (s.take limit) := List.Chain'.take hrun _
        rw [NoRun, List.chain'_iff_get] at hchain
        have hlen2 : ((s.take limit).take i).length = i := by
          rw [List.length_take]
          omega
        rw [List.getLast?_eq_getElem?, hlen2, List.getElem?_take, if_pos (by omega)] at hc
        have hstep := hchain (i - 1) (by omega)
        apply hstep
        have hip : i - 1 + 1 = i := by omega
        constructor
        · obtain ⟨hlt, he⟩ := List.getElem?_eq_some_iff.mp hc
          simp only [List.get_eq_getElem, he]
          exact beq_self_eq_true cut
        · obtain ⟨hlt, he⟩ := List.getElem?_eq_some_iff.mp higet
          simp only [List.get_eq_getElem, hip, he]
          exact beq_self_eq_true cut
      · have hi0 : i = 0 := by omega
        subst hi0
        rw [goLastIndexChar_some hli, if_neg (by omega)]
        intro hc
        rcases Nat.eq_zero_or_pos limit with rfl | hpos
        · simp at hc
        · rw [List.getLast?_eq_getElem?, hlen] at hc
          rcases Nat.lt_or_ge 1 limit with h1 | h1
          · exact lastIdx?_last hli (limit - 1) (by omega) hc
          · have hlim1 : limit = 1 := by omega
            subst hlim1
            rw [show (1 : Nat) - 1 = 0 from rfl, ← List.head?_eq_getElem?] at hc
            rw [head?_take (by omega) s] at hc
            exact hh hc

/-! ### The Slugify invariant -/

theorem goTrimBy_head_ne_cut (cut : Nat) (x : List Nat) :
    (goTrimBy (fun c => c == cut) x).head? ≠ some cut := by
  intro hc
  have h := goTrimBy_head hc
  simp at h

theorem goTrimBy_getLast_ne_cut (cut : Nat) (x : List Nat) :
    (goTrimBy (fun c => c == cut) x).getLast? ≠ some cut := by
  intro hc
  have h := goTrimBy_getLast hc
  simp at h


/-! ### Decoding produces only valid scalar values -/

theorem utf8Decode_valid : ∀ (s : List Nat), ∀ r ∈ utf8Decode s, validScalar r := by
  intro s
  induction s using utf8Decode.induct <;>
      (intro r hr
       rw [utf8Decode] at hr
       repeat' split at hr) <;>
    ((simp only [List.mem_cons, List.mem_singleton, List.not_mem_nil] at hr) <;>
     first
       | exact hr.elim
       | (obtain rfl | hr := hr
          · simp only [validScalar]
            omega
          · solve_by_elim))

/-! ### ASCII bytes never occur inside a multi-byte encoding unit -/

theorem utf8EncodeChar_highbytes {r : Nat} (h : 0x80 ≤ r) :
    ∀ b ∈ utf8EncodeChar r, 0x80 ≤ b := by
  intro b hb
  simp only [utf8EncodeChar] at hb
  rw [if_neg (by omega)] at hb
  repeat' split at hb
  all_goals simp only [List.mem_cons, List.mem_singleton, List.not_mem_nil, or_false] at hb
  all_goals first
    | (obtain rfl | rfl := hb <;> omega)
    | (obtain rfl | rfl | rfl := hb <;> omega)
    | (obtain rfl | rfl | rfl | rfl := hb <;> omega)

theorem replaceChar_encodeChar {a b : Nat} (ha : a < 0x80) (hb : b < 0x80) (r : Nat) :
    replaceChar a b (utf8EncodeChar r) = utf8EncodeChar (if r = a then b else r) := by
  rcases Nat.lt_or_ge r 0x80 with hr | hr
  · rw [utf8EncodeChar_ascii hr]
    by_cases hra : r = a
    · rw [if_pos hra, utf8EncodeChar_ascii hb]
      simp [replaceChar, hra]
    · rw [if_neg hra, utf8EncodeChar_ascii hr]
      exact replaceChar_eq_self (by simpa using hra)
  · rw [if_neg (by omega)]
    exact replaceChar_eq_self (fun c hc => by
      have := utf8EncodeChar_highbytes hr c hc
      omega)

theorem replaceChar_append (a b : Nat) (l₁ l₂ : List Nat) :
    replaceChar a b (l₁ ++ l₂) = replaceChar a b l₁ ++ replaceChar a b l₂ := by
  simp [replaceChar]

theorem replaceChar_utf8Encode {a b : Nat} (ha : a < 0x80) (hb : b < 0x80) :
    ∀ rs : List Nat,
      replaceChar a b (utf8Encode rs) = utf8Encode (rs.map (fun r => if r = a then b else r)) := by
  intro rs
  induction rs with
  | nil => rfl
  | cons r rest ih =>
    show replaceChar a b (utf8EncodeChar r ++ utf8Encode rest) = _
    rw [replaceChar_append, replaceChar_encodeChar ha hb, ih]
    rfl

theorem validScalar_go_toLower {r : Nat} (h : validScalar r) : validScalar (go_toLower r) := by
  simp only [go_toLower]
  split <;> simp only [validScalar] at h ⊢ <;> omega

/-! ### The Slugify invariant (ASCII inputs) -/

theorem go_toLower_lt_128 {r : Nat} (h : r < 128) : go_toLower r < 128 := by
  simp only [go_toLower]
  split <;> omega

theorem replaceChar_lt_128 {a b : Nat} (hb : b < 128) {l : List Nat}
    (hl : ∀ c ∈ l, c < 128) : ∀ c ∈ replaceChar a b l, c < 128 := by
  intro c hc
  simp only [replaceChar, List.mem_map] at hc
  obtain ⟨y, hy, rfl⟩ := hc
  split
  · exact hb
  · exact hl y hy

/-- On an all-ASCII input every UTF-8 decode/encode stage of `Slugify` is the
identity, so `Slugify` reduces to the pure byte pipeline. -/
theorem slugify_ascii_pipeline {x : List Nat} (hx : ∀ b ∈ x, b < 128) :
    Slugify x = goCapAt 50 45 (goTrimBy (fun b => b == 45)
      (collapseRunsBy (fun b => b == 45) 45
        ((replaceChar 95 45 (replaceChar 32 45 (x.map go_toLower))).filter isSlugKeep))) := by
  have hlow : ∀ b ∈ x.map go_toLower, b < 128 := by
    intro b hb
    obtain ⟨y, hy, rfl⟩ := List.mem_map.mp hb
    exact go_toLower_lt_128 (hx y hy)
  have hrep : ∀ b ∈ replaceChar 95 45 (replaceChar 32 45 (x.map go_toLower)), b < 128 :=
    replaceChar_lt_128 (by omega) (replaceChar_lt_128 (by omega) hlow)
  have hfil : ∀ b ∈ (replaceChar 95 45 (replaceChar 32 45 (x.map go_toLower))).filter isSlugKeep,
      b < 128 :=
    fun b hb => hrep b (List.mem_filter.mp hb).1
  simp only [Slugify]
  rw [utf8Decode_ascii hx, utf8Encode_ascii hlow, utf8Decode_ascii hrep, utf8Encode_ascii hfil]

theorem go_toLower_combined_fixed {w : Nat} (hw : go_toLower w = w) :
    go_toLower (if (if w = 32 then 45 else w) = 95 then 45
      else if w = 32 then 45 else w) =
      (if (if w = 32 then 45 else w) = 95 then 45 else if w = 32 then 45 else w) := by
  by_cases h1 : w = 32
  · subst h1
    decide
  · rw [if_neg h1]
    by_cases h2 : w = 95
    · subst h2
      decide
    · rw [if_neg h2]
      exact hw

theorem slugCore_SlugP {l : List Nat} (hl : ∀ b ∈ l, b < 128) :
    ∀ c ∈ (replaceChar 95 45 (replaceChar 32 45 (l.map go_toLower))).filter isSlugKeep,
      SlugP c := by
  intro c hc
  rw [List.mem_filter] at hc
  obtain ⟨hmem, hkeep⟩ := hc
  unfold replaceChar at hmem
  rw [List.map_map, List.map_map] at hmem
  obtain ⟨y, hy, hcy⟩ := List.mem_map.mp hmem
  subst hcy
  simp only [Function.comp_apply] at hkeep ⊢
  refine ⟨?_, hkeep, go_toLower_combined_fixed (go_toLower_idem y)⟩
  have hy128 := go_toLower_lt_128 (hl y hy)
  repeat' split
  all_goals omega

theorem slugify_inv {s : List Nat} (hs : ∀ b ∈ s, b < 128) : SlugInv (Slugify s) := by
  rw [slugify_ascii_pipeline hs]
  set core := (replaceChar 95 45 (replaceChar 32 45 (s.map go_toLower))).filter isSlugKeep
    with hcore
  set col := collapseRunsBy (fun b => b == 45) 45 core with hcol
  set trm := goTrimBy (fun b => b == 45) col with htrm
  have htrmRun : NoRun (fun b => b == 45) trm :=
    List.Chain'.infix (noRun_collapse core) (goTrimBy_isInf col)
  have htrmHead : trm.head? ≠ some 45 := goTrimBy_head_ne_cut 45 col
  have htrmLast : trm.getLast? ≠ some 45 := goTrimBy_getLast_ne_cut 45 col
  refine ⟨?_, ?_, ?_, ?_, ?_⟩
  · intro c hc
    have hc2 : c ∈ trm := goCapAt_mem hc
    have hc3 : c ∈ col := List.IsInfix.subset (goTrimBy_isInf col) hc2
    rcases mem_collapse hc3 with hc4 | hc4
    · exact slugCore_SlugP hs c hc4
    · subst hc4
      exact ⟨by omega, by decide, by decide⟩
  · exact goCapAt_noRun htrmRun
  · rw [goCapAt_head (by omega)]
    exact htrmHead
  · exact goCapAt_getLast htrmRun htrmHead htrmLast
  · exact goCapAt_length _ _ _

theorem slugify_fixed {l : List Nat} (h : SlugInv l) : Slugify l = l := by
  obtain ⟨hP, hrun, hhead, hlast, hlen⟩ := h
  rw [slugify_ascii_pipeline (fun b hb => (hP b hb).1)]
  have hlow : l.map go_toLower = l := map_eq_self_of (fun c hc => (hP c hc).2.2)
  have hsp : replaceChar 32 45 l = l :=
    replaceChar_eq_self (fun c hc => isSlugKeep_ne_space (hP c hc).2.1)
  have hun : replaceChar 95 45 l = l :=
    replaceChar_eq_self (fun c hc => isSlugKeep_ne_underscore (hP c hc).2.1)
  have hfil : l.filter isSlugKeep = l := List.filter_eq_self.mpr (fun c hc => (hP c hc).2.1)
  have hcol : collapseRunsBy (fun b => b == 45) 45 l = l :=
    collapse_eq_self hrun (fun c _ hpc => eq_of_beq hpc)
  have htrm : goTrimBy (fun b => b == 45) l = l := by
    apply goTrimBy_eq_self
    · intro a ha
      rw [beq_eq_false_iff_ne]
      intro hac
      subst hac
      exact hhead ha
    · intro a ha
      rw [beq_eq_false_iff_ne]
      intro hac
      subst hac
      exact hlast ha
  rw [hlow, hsp, hun, hfil, hcol, htrm, goCapAt_eq_of_le hlen]

/-! ### The byte-level truncation against the specification shape -/

theorem goCapAt_eq_spec {limit : Nat} {cut : Nat} {s : List Nat} (hlim : 0 < limit)
    (hh : s.head? ≠ some cut) :
    goCapAt limit cut s =
      (if s.length ≤ limit then s
       else
         match lastIdx? cut (s.take limit) with
         | some i => (s.take limit).take i
         | none => s.take limit) := by
  by_cases hle : s.length ≤ limit
  · rw [goCapAt_eq_of_le hle, if_pos hle]
  · rw [if_neg hle]
    simp only [goCapAt]
    rw [if_pos (by omega)]
    cases hli : lastIdx? cut (s.take limit) with
    | none =>
      simp only [hli]
      rw [goLastIndexChar_none hli, if_neg (by omega)]
    | some i =>
      simp only [hli]
      by_cases hi : 0 < i
      · rw [goLastIndexChar_some hli, if_pos (by exact_mod_cast hi), Int.toNat_ofNat]
      · exfalso
        have hi0 : i = 0 := by omega
        subst hi0
        obtain ⟨hilt, higet⟩ := lastIdx?_some hli
        rw [← List.head?_eq_getElem?] at higet
        rw [head?_take hlim s] at higet
        exact hh higet

/-! ### C1: idempotence of Slugify -/

/-- C1 (counterexample): `Slugify` is NOT idempotent on every input.  On the
UTF-8 encoding of 17 CJK ideographs (51 bytes) the 50-byte cap slices the
last ideograph in half; re-slugifying decodes the two stray bytes as two
`U+FFFD` replacement characters, which the letter/digit/hyphen filter drops,
so the second pass shortens the string. -/
theorem slugify_not_idempotent :
    Slugify (Slugify cjkSlugInput) ≠ Slugify cjkSlugInput := by decide

/-- C1 (amended): `Slugify` is idempotent on every ASCII input — for every
byte string `x` whose bytes are all below 128, `Slugify (Slugify x) =
Slugify x`. -/
theorem slugify_idempotent (x : List Nat) (hx : ∀ b ∈ x, b < 128) :
    Slugify (Slugify x) = Slugify x :=
  slugify_fixed (slugify_inv hx)

/-- C1 (witness): the amended idempotence theorem applied to the concrete
ASCII input `"Fix the bug"`. -/
theorem slugify_idempotent_witness :
    (∀ b ∈ str "Fix the bug", b < 128) ∧
      Slugify (Slugify (str "Fix the bug")) = Slugify (str "Fix the bug") :=
  ⟨by decide, slugify_idempotent (str "Fix the bug") (by decide)⟩

/-! ### C2: Slugify against the specification's description -/

/-- C2 (counterexample): the claim's description read at CHARACTER
granularity ("capped at 50 characters") disagrees with the code: on 51 CJK
ideographs the code caps at 50 BYTES (16 whole ideographs plus a split one),
not 50 characters. -/
theorem slugify_not_spec_chars :
    Slugify cjkTitleInput ≠ SlugifySpecChars cjkTitleInput := by decide

/-- C2 (amended): `Slugify` implements the specification's pipeline with the
cap read at BYTE granularity: lowercase; spaces and underscores to hyphens;
every character that is not a letter, digit, or hyphen dropped; consecutive
hyphens collapsed; leading/trailing hyphens trimmed; capped at 50 bytes by
backing up to the last hyphen in the window when one exists at positive
index, else hard-truncated. -/
theorem slugify_matches_spec : ∀ s : List Nat, Slugify s = SlugifySpec s := by
  intro s
  have hconv : ∀ y : Nat,
      (if (if y = 32 then 45 else y) = 95 then 45 else if y = 32 then 45 else y) =
        (if y = 32 ∨ y = 95 then 45 else y) := by
    intro y
    by_cases h1 : y = 32
    · subst h1
      decide
    · by_cases h2 : y = 95
      · subst h2
        decide
      · simp [h1, h2]
  have hfuse : (((utf8Decode s).map go_toLower).map (fun r => if r = 32 then 45 else r)).map
      (fun r => if r = 95 then 45 else r) =
      ((utf8Decode s).map go_toLower).map (fun r => if r = 32 ∨ r = 95 then 45 else r) := by
    rw [List.map_map]
    apply List.map_congr_left
    intro y _
    exact hconv y
  have hval : ∀ r ∈ ((utf8Decode s).map go_toLower).map
      (fun r => if r = 32 ∨ r = 95 then 45 else r), validScalar r := by
    intro r hr
    obtain ⟨y, hy, rfl⟩ := List.mem_map.mp hr
    obtain ⟨z, hz, rfl⟩ := List.mem_map.mp hy
    have hv := validScalar_go_toLower (utf8Decode_valid s z hz)
    split
    · simp only [validScalar]
      omega
    · exact hv
  simp only [Slugify, SlugifySpec]
  rw [replaceChar_utf8Encode (by omega) (by omega),
    replaceChar_utf8Encode (by omega) (by omega), hfuse, utf8Decode_encode hval,
    goCapAt_eq_spec (by omega) (goTrimBy_head_ne_cut 45 _)]

/-! ### C3: GenerateTitle -/

theorem title_norm_head_ne (x : List Nat) :
    (collapseRunsBy re_isSpace 32 (goTrimSpace x)).head? ≠ some 32 := by
  cases h : goTrimSpace x with
  | nil =>
    intro hc
    simp [collapseRunsBy] at hc
  | cons b r =>
    have hb : go_isSpace b = false := by
      apply goTrimBy_head (l := x)
      rw [show goTrimBy go_isSpace x = goTrimSpace x from rfl, h]
      rfl
    have hrb : re_isSpace b = false := by
      cases hre : re_isSpace b
      · rfl
      · rw [re_isSpace_sub_go hre] at hb
        exact absurd hb (by simp)
    rw [collapse_head_of_not_p hrb]
    intro hc
    simp only [Option.some.injEq] at hc
    subst hc
    exact absurd hb (by decide)

/-- C3 (counterexample): the claim's "at most 60 characters returned as-is"
read at CHARACTER granularity disagrees with the code: 50 CJK ideographs are
50 characters but 150 bytes, and the code truncates at `len(prompt) <= 60`
BYTES. -/
theorem generateTitle_not_spec_chars :
    GenerateTitle cjkPromptInput ≠ GenerateTitleSpecChars cjkPromptInput := by decide

/-- C3 (amended): `GenerateTitle` collapses whitespace runs to single spaces
and trims the ends; a result of at most 60 BYTES is returned as-is, otherwise
it is truncated to the first 60 bytes backed up to the last space in that
window when one exists at positive index; the result never exceeds 60 bytes;
and `GenerateTitle("   multiple   spaces   ") = "multiple spaces"`. -/
theorem generateTitle_correct :
    (∀ x : List Nat, GenerateTitle x = GenerateTitleSpec x ∧ (GenerateTitle x).length ≤ 60) ∧
    GenerateTitle (str "   multiple   spaces   ") = str "multiple spaces" := by
  constructor
  · intro x
    constructor
    · show goCapAt 60 32 (collapseRunsBy re_isSpace 32 (goTrimSpace x)) = _
      rw [goCapAt_eq_spec (by omega) (title_norm_head_ne x)]
      rfl
    · exact goCapAt_length _ _ _
  · decide

/-! ### C4: filename generation -/

/-- C4: `GenerateFilename` is exactly the date formatted `YYYY-MM-DD`, a
hyphen, the slug of the title, and `.md` — a pure function of title and
date; in particular `GenerateFilename("Fix the bug", 2024-01-15)` is
`"2024-01-15-fix-the-bug.md"`, and an empty title yields the date plus
`-.md`. -/
theorem generateFilename_correct :
    (∀ (title : List Nat) (ts : GoTime),
        GenerateFilename title ts = formatDate ts ++ str "-" ++ Slugify title ++ str ".md") ∧
    GenerateFilename (str "Fix the bug") ⟨2024, 1, 15⟩ = str "2024-01-15-fix-the-bug.md" ∧
    (∀ ts : GoTime, GenerateFilename [] ts = formatDate ts ++ str "-.md") := by
  refine ⟨fun title ts => rfl, by decide, fun ts => ?_⟩
  show formatDate ts ++ str "-" ++ Slugify [] ++ str ".md" = formatDate ts ++ str "-.md"
  have h1 : Slugify [] = [] := rfl
  have h2 : str "-.md" = str "-" ++ str ".md" := rfl
  rw [h1, h2]
  simp [List.append_assoc]

/-! ### Capture-form claims -/

/-- C5: triggering Save with a prompt that is empty after trimming
whitespace shows the error toast "Prompt is required" (scheduling its
auto-hide), writes no file, and leaves every other part of the form state
unchanged — the returned model differs from the input only in the three
toast fields, and the command is not a quit. -/
theorem saveAndExit_blank_prompt (env : Env) (m : Model)
    (h : goTrimSpace m.prompt.value = []) :
    saveAndExit env m =
      ({ m with showToast := true, isError := true, toastMsg := str "Prompt is required" },
        Cmd.hideToastAfter 2, none) := by
  simp only [saveAndExit]
  rw [if_pos h]

theorem saveAndExit_blank_prompt_witness :
    goTrimSpace fixtureModelBlank.prompt.value = [] ∧
    saveAndExit fixtureEnv fixtureModelBlank =
      ({ fixtureModelBlank with
          showToast := true
          isError := true
          toastMsg := str "Prompt is required" },
        Cmd.hideToastAfter 2, none) :=
  ⟨by decide, saveAndExit_blank_prompt fixtureEnv fixtureModelBlank (by decide)⟩

theorem clearFields_spec (env : Env) (m : Model) :
    (clearFields env m).prompt.value = [] ∧
    (clearFields env m).output.value = [] ∧
    (clearFields env m).tags = NewTagInput (mergeTagSuggestions m.favoriteTags env.freshFrequent) ∧
    (clearFields env m).focusIndex = 0 ∧
    (clearFields env m).prompt.focused = true ∧
    (clearFields env m).toolSelect.options = m.toolSelect.options ∧
    (clearFields env m).toolSelect.selectedIdx = m.toolSelect.selectedIdx ∧
    (clearFields env m).toolSelect.selected = m.toolSelect.selected ∧
    (clearFields env m).showToast = m.showToast ∧
    (clearFields env m).isError = m.isError ∧
    (clearFields env m).toastMsg = m.toastMsg ∧
    (clearFields env m).stayOpen = m.stayOpen := by
  simp only [clearFields, setFocus, blurCurrent, focusCurrent, NewTagInput]
  repeat' split
  all_goals simp_all

/-- C7: after a successful save in stayOpen mode, the form resets the
prompt, output, and tag-input fields to their initial empty state with tag
suggestions recomputed from the fresh entry set, returns focus to field 0,
leaves the tool selector's selection unchanged, shows the success toast,
and schedules only a toast auto-hide (the session continues). -/
theorem saveAndExit_stayOpen_resets (env : Env) (m : Model) (path : List Nat)
    (hne : goTrimSpace m.prompt.value ≠ [])
    (hstay : m.stayOpen = true)
    (hok : env.saveResult = Except.ok path) :
    (saveAndExit env m).1.prompt.value = [] ∧
    (saveAndExit env m).1.output.value = [] ∧
    (saveAndExit env m).1.tags =
      NewTagInput (mergeTagSuggestions m.favoriteTags env.freshFrequent) ∧
    (saveAndExit env m).1.focusIndex = 0 ∧
    (saveAndExit env m).1.prompt.focused = true ∧
    (saveAndExit env m).1.toolSelect.options = m.toolSelect.options ∧
    (saveAndExit env m).1.toolSelect.selectedIdx = m.toolSelect.selectedIdx ∧
    (saveAndExit env m).1.toolSelect.selected = m.toolSelect.selected ∧
    (saveAndExit env m).1.showToast = true ∧
    (saveAndExit env m).1.isError = false ∧
    (saveAndExit env m).2.1 = Cmd.hideToastAfter 2 := by
  have hstep : saveAndExit env m =
      (clearFields env { m with
          showToast := true
          isError := false
          toastMsg := str "Saved: " ++ path },
        Cmd.hideToastAfter 2,
        some (GenerateFilename (GenerateTitle m.prompt.value) env.now,
          buildContent (GenerateTitle m.prompt.value) env.nowRFC3339
            (if env.gitAuthor = [] then str "Unknown" else env.gitAuthor)
            m.toolSelect.selected m.tags.tags m.prompt.value m.output.value)) := by
    simp only [saveAndExit]
    rw [if_neg hne, hok]
    simp only [hstay, if_true]
  rw [hstep]
  have hcf := clearFields_spec env { m with
      showToast := true
      isError := false
      toastMsg := str "Saved: " ++ path }
  obtain ⟨h1, h2, h3, h4, h5, h6, h7, h8, h9, h10, h11, h12⟩ := hcf
  exact ⟨h1, h2, h3, h4, h5, h6, h7, h8, h9, h10, rfl⟩

theorem saveAndExit_stayOpen_resets_witness :
    goTrimSpace fixtureModel.prompt.value ≠ [] ∧
    fixtureModel.stayOpen = true ∧
    fixtureEnv.saveResult = Except.ok (str "/repo/crumbs/2024-01-15-hello-world.md") ∧
    ((saveAndExit fixtureEnv fixtureModel).1.prompt.value = [] ∧
      (saveAndExit fixtureEnv fixtureModel).1.output.value = [] ∧
      (saveAndExit fixtureEnv fixtureModel).1.tags =
        NewTagInput (mergeTagSuggestions fixtureModel.favoriteTags fixtureEnv.freshFrequent) ∧
      (saveAndExit fixtureEnv fixtureModel).1.focusIndex = 0 ∧
      (saveAndExit fixtureEnv fixtureModel).1.prompt.focused = true ∧
      (saveAndExit fixtureEnv fixtureModel).1.toolSelect.options =
        fixtureModel.toolSelect.options ∧
      (saveAndExit fixtureEnv fixtureModel).1.toolSelect.selectedIdx =
        fixtureModel.toolSelect.selectedIdx ∧
      (saveAndExit fixtureEnv fixtureModel).1.toolSelect.selected =
        fixtureModel.toolSelect.selected ∧
      (saveAndExit fixtureEnv fixtureModel).1.showToast = true ∧
      (saveAndExit fixtureEnv fixtureModel).1.isError = false ∧
      (saveAndExit fixtureEnv fixtureModel).2.1 = Cmd.hideToastAfter 2) :=
  ⟨by decide, by decide, by decide,
    saveAndExit_stayOpen_resets fixtureEnv fixtureModel
      (str "/repo/crumbs/2024-01-15-hello-world.md") (by decide) (by decide) (by decide)⟩

theorem setFocus_focusIndex (m : Model) (i : Int) : (setFocus m i).focusIndex = i := by
  simp only [setFocus, focusCurrent]
  repeat' split
  all_goals rfl

/-- C8: for every form state with `focusIndex` in `{0,1,2,3}`, Tab sets the
focus to `(focusIndex + 1) mod 4` and Shift+Tab to `(focusIndex - 1 + 4)
mod 4`, both remaining in `{0,1,2,3}`; Tab from field 3 wraps to field 0 and
Shift+Tab from field 0 wraps to field 3. -/
theorem focus_cycle (m : Model) (h0 : 0 ≤ m.focusIndex) (h4 : m.focusIndex < 4) :
    (focusNext m).focusIndex = (m.focusIndex + 1) % 4 ∧
    (focusPrev m).focusIndex = (m.focusIndex - 1 + 4) % 4 ∧
    (0 ≤ (focusNext m).focusIndex ∧ (focusNext m).focusIndex < 4) ∧
    (0 ≤ (focusPrev m).focusIndex ∧ (focusPrev m).focusIndex < 4) ∧
    (m.focusIndex = 3 → (focusNext m).focusIndex = 0) ∧
    (m.focusIndex = 0 → (focusPrev m).focusIndex = 3) := by
  simp only [focusNext, focusPrev, setFocus_focusIndex]
  have hcase : m.focusIndex = 0 ∨ m.focusIndex = 1 ∨ m.focusIndex = 2 ∨ m.focusIndex = 3 := by
    omega
  rcases hcase with h | h | h | h <;> rw [h] <;> decide

theorem focus_cycle_witness :
    (0 ≤ fixtureModel.focusIndex ∧ fixtureModel.focusIndex < 4) ∧
    (focusNext fixtureModel).focusIndex = (fixtureModel.focusIndex + 1) % 4 ∧
    (focusPrev fixtureModel).focusIndex = (fixtureModel.focusIndex - 1 + 4) % 4 :=
  ⟨⟨by decide, by decide⟩,
    (focus_cycle fixtureModel (by decide) (by decide)).1,
    (focus_cycle fixtureModel (by decide) (by decide)).2.1⟩

/-- C9 (counterexample to the claim as stated): with the help overlay
visible, a key press is NOT routed to the focused field — the model after
`Update` differs from the model obtained by dismissing the overlay and
routing the key to the focused prompt field (which would have inserted the
text). -/
theorem help_key_not_routed :
    (Update fixtureEnv fixtureModelHelp (Msg.key (str "a"))).1 ≠
      routeToFocused { fixtureModelHelp with showHelp := false } (Msg.key (str "a")) := by
  decide

/-- C9 (amended): while the help overlay is visible, any key press dismisses
the overlay, leaves the rest of the state (including the focus) unchanged,
and is consumed — it is not routed to the focused field, no command is
scheduled and nothing is written. -/
theorem help_key_consumed (env : Env) (m : Model) (s : List Nat)
    (h : m.showHelp = true) :
    Update env m (Msg.key s) = ({ m with showHelp := false }, Cmd.none, none) := by
  simp only [Update, h, if_true]

theorem help_key_consumed_witness :
    fixtureModelHelp.showHelp = true ∧
    Update fixtureEnv fixtureModelHelp (Msg.key (str "a")) =
      ({ fixtureModelHelp with showHelp := false }, Cmd.none, none) :=
  ⟨by decide, help_key_consumed fixtureEnv fixtureModelHelp (str "a") (by decide)⟩

/-! ### Tag-suggestion merging -/

theorem mem_firstDedup : ∀ (l : List (List Nat)) (x : List Nat),
    x ∈ firstDedup l ↔ x ∈ l := by
  intro l
  induction l using firstDedup.induct with
  | case1 => intro x; rw [firstDedup]
  | case2 t ts ih =>
    intro x
    rw [firstDedup]
    simp only [List.mem_cons]
    constructor
    · intro h
      rcases h with h | h
      · exact Or.inl h
      · have := (ih x).mp h
        rw [List.mem_filter] at this
        exact Or.inr this.1
    · intro h
      rcases h with h | h
      · exact Or.inl h
      · by_cases hxt : x = t
        · exact Or.inl hxt
        · refine Or.inr ((ih x).mpr ?_)
          rw [List.mem_filter]
          exact ⟨h, by simp [hxt]⟩

theorem nodup_firstDedup : ∀ l : List (List Nat), (firstDedup l).Nodup := by
  intro l
  induction l using firstDedup.induct with
  | case1 => rw [firstDedup]; exact List.nodup_nil
  | case2 t ts ih =>
    rw [firstDedup]
    refine List.nodup_cons.mpr ⟨?_, ih⟩
    intro hmem
    have := (mem_firstDedup _ t).mp hmem
    rw [List.mem_filter] at this
    simp at this

theorem mergeAdd_snd : ∀ (l seen result : List (List Nat)),
    (∀ x, x ∈ seen ↔ x ∈ result) →
    (mergeAdd seen result l).2 =
      result ++ firstDedup (l.filter (fun t => decide (t ∉ result))) := by
  intro l
  induction l with
  | nil => intro seen result _; simp [mergeAdd, firstDedup]
  | cons t ts ih =>
    intro seen result hinv
    by_cases hts : t ∈ seen
    · have htr : t ∈ result := (hinv t).mp hts
      rw [mergeAdd, if_pos hts, ih seen result hinv]
      have hfil : (t :: ts).filter (fun t => decide (t ∉ result)) =
          ts.filter (fun t => decide (t ∉ result)) := by
        rw [List.filter_cons]
        simp [htr]
      rw [hfil]
    · have htr : t ∉ result := fun hc => hts ((hinv t).mpr hc)
      rw [mergeAdd, if_neg hts]
      rw [ih (t :: seen) (result ++ [t]) (by
        intro x
        simp only [List.mem_cons, List.mem_append, List.mem_singleton]
        rw [hinv x]
        tauto)]
      have hfil : (t :: ts).filter (fun t => decide (t ∉ result)) =
          t :: ts.filter (fun t => decide (t ∉ result)) := by
        rw [List.filter_cons]
        simp [htr]
      rw [hfil, firstDedup]
      have hff : (ts.filter (fun x => decide (x ∉ result))).filter
            (fun x => decide (x ≠ t)) =
          ts.filter (fun x => decide (x ∉ result ++ [t])) := by
        rw [List.filter_filter]
        apply List.filter_congr
        intro x _
        simp only [List.mem_append, List.mem_singleton]
        rcases Classical.em (x ∈ result) with hx | hx <;>
          rcases Classical.em (x = t) with hx2 | hx2 <;> simp [hx, hx2]
      rw [hff, List.append_assoc]
      rfl

theorem mergeAdd_sync : ∀ (l seen result : List (List Nat)),
    (∀ x, x ∈ seen ↔ x ∈ result) →
    ∀ x, x ∈ (mergeAdd seen result l).1 ↔ x ∈ (mergeAdd seen result l).2 := by
  intro l
  induction l with
  | nil => intro seen result hinv x; exact hinv x
  | cons t ts ih =>
    intro seen result hinv x
    by_cases hts : t ∈ seen
    · rw [mergeAdd, if_pos hts]
      exact ih seen result hinv x
    · rw [mergeAdd, if_neg hts]
      refine ih (t :: seen) (result ++ [t]) ?_ x
      intro y
      simp only [List.mem_cons, List.mem_append, List.mem_singleton]
      rw [hinv y]
      tauto

/-- C10: `mergeTagSuggestions` returns a duplicate-free list consisting of
the favorites in first-occurrence order followed by the frequent tags not
already among the favorites, in first-occurrence order — favorites take
priority in the suggestion order. -/
theorem mergeTagSuggestions_correct :
    ∀ favorites frequent : List (List Nat),
      mergeTagSuggestions favorites frequent = mergeSpec favorites frequent ∧
      (mergeTagSuggestions favorites frequent).Nodup := by
  intro favorites frequent
  have hinv0 : ∀ x : List Nat, x ∈ ([] : List (List Nat)) ↔ x ∈ ([] : List (List Nat)) :=
    fun x => Iff.rfl
  have hfavs : (mergeAdd [] [] favorites).2 = firstDedup favorites := by
    rw [mergeAdd_snd favorites [] [] hinv0]
    have : favorites.filter (fun t => decide (t ∉ ([] : List (List Nat)))) = favorites := by
      apply List.filter_eq_self.mpr
      intro a _
      simp
    rw [this]
    rfl
  have hsync := mergeAdd_sync favorites [] [] hinv0
  have hmain : mergeTagSuggestions favorites frequent =
      firstDedup favorites ++
        firstDedup (frequent.filter (fun t => decide (t ∉ firstDedup favorites))) := by
    show (mergeAdd (mergeAdd [] [] favorites).1 (mergeAdd [] [] favorites).2 frequent).2 = _
    rw [mergeAdd_snd frequent _ _ hsync, hfavs]
  have hfl : frequent.filter (fun t => decide (t ∉ firstDedup favorites)) =
      frequent.filter (fun t => decide (t ∉ favorites)) := by
    apply List.filter_congr
    intro x _
    rw [decide_eq_decide]
    rw [mem_firstDedup]
  rw [hmain, hfl]
  refine ⟨rfl, ?_⟩
  rw [List.nodup_append]
  refine ⟨nodup_firstDedup _, nodup_firstDedup _, ?_⟩
  intro x hx hy
  have hxf : x ∈ favorites := (mem_firstDedup _ x).mp hx
  have hyf := (mem_firstDedup _ x).mp hy
  rw [List.mem_filter] at hyf
  have : x ∉ favorites := by simpa using hyf.2
  exact this hxf

/-! ### Index-generation idempotence -/

namespace readme

theorem splitOn_ne_nil (sep : Nat) : ∀ l : List Nat, splitOn sep l ≠ [] := by
  intro l
  induction l with
  | nil => simp [splitOn]
  | cons c rest ih =>
    rw [splitOn]
    by_cases hc : c = sep
    · simp [hc]
    · simp only [hc, if_false]
      cases hr : splitOn sep rest with
      | nil => exact absurd hr ih
      | cons a as => simp

theorem splitOn_cons_of_ne {sep c : Nat} (hc : ¬c = sep) (l : List Nat) :
    ∃ l0 ls, splitOn sep (c :: l) = (c :: l0) :: ls := by
  rw [splitOn]
  simp only [hc, if_false]
  cases hr : splitOn sep l with
  | nil => exact absurd hr (splitOn_ne_nil sep l)
  | cons a as => exact ⟨a, as, rfl⟩

theorem generate_starts_hash (d : Dir) : ∃ t, Generate d = 35 :: t :=
  ⟨_, rfl⟩

theorem parse_generate_none (d : Dir) : parseFrontMatter (Generate d) = none := by
  obtain ⟨t, hg⟩ := generate_starts_hash d
  rw [hg]
  obtain ⟨l0, ls, hsp⟩ := splitOn_cons_of_ne (by decide : ¬ (35 = 10)) t
  simp only [parseFrontMatter, hsp]
  rw [if_neg]
  intro hcontra
  have hh := congrArg List.head? hcontra
  simp [str, utf8Encode, utf8EncodeChar] at hh

theorem rowsOf_cons (f : List Nat × List Nat) (d : Dir) :
    rowsOf (f :: d) =
      (if (str ".md").isSuffixOf f.1 then ((parseFrontMatter f.2).map mkRow).toList
       else []) ++ rowsOf d := by
  by_cases hmd : ((str ".md").isSuffixOf f.1) = true
  · simp only [rowsOf, List.filter_cons, hmd, if_true, List.filterMap_cons]
    cases parseFrontMatter f.2 <;> simp [rowsOf]
  · simp [rowsOf, List.filter_cons, hmd]

theorem rowsOf_writeFile : ∀ (d : Dir) (name c : List Nat),
    parseFrontMatter c = none →
    (∀ f ∈ d, f.1 = name → parseFrontMatter f.2 = none) →
    rowsOf (writeFile d name c) = rowsOf d := by
  intro d name c hc
  induction d with
  | nil =>
    intro _
    show rowsOf [(name, c)] = rowsOf []
    rw [rowsOf_cons]
    simp [hc]
  | cons f rest ih =>
    intro hold
    obtain ⟨n, c0⟩ := f
    simp only [writeFile]
    by_cases hn : n = name
    · rw [if_pos hn, rowsOf_cons, rowsOf_cons]
      have hc0 : parseFrontMatter c0 = none := hold (n, c0) (by simp) hn
      simp [hc, hc0]
    · rw [if_neg hn, rowsOf_cons, rowsOf_cons]
      rw [ih (fun f hf hf1 => hold f (by simp [hf]) hf1)]

/-- C6: regenerating the index over an unchanged entry set is idempotent —
writing the generated index into the directory (as `README.md`) and running
the generator again produces byte-identical output, because the generated
document has no front matter and is therefore skipped by the scan.  The
hypothesis states that any pre-existing `README.md` also lacks front matter
(which holds for the generated and the `init`-seeded index). -/
theorem generate_idempotent (d : Dir)
    (h : ∀ f ∈ d, f.1 = str "README.md" → parseFrontMatter f.2 = none) :
    Generate (writeFile d (str "README.md") (Generate d)) = Generate d := by
  have hrows : rowsOf (writeFile d (str "README.md") (Generate d)) = rowsOf d :=
    rowsOf_writeFile d (str "README.md") (Generate d) (parse_generate_none d) h
  show indexHeader ++ (sortRows (rowsOf _)).foldl (fun acc r => acc ++ renderRow r) [] ++
      indexFooter = _
  rw [hrows]
  rfl

end readme

theorem generate_idempotent_witness :
    (∀ f ∈ fixtureDir, f.1 = str "README.md" → readme.parseFrontMatter f.2 = none) ∧
    readme.Generate (readme.writeFile fixtureDir (str "README.md")
        (readme.Generate fixtureDir)) = readme.Generate fixtureDir :=
  ⟨by decide, readme.generate_idempotent fixtureDir (by decide)⟩
